import Mathlib

/-
Verification of the minefield core of the GoogleMinesweeperClone repository
(src/minesweeper/minesweeper.py and src/minesweeper/constants.py).

The Python data model is embedded shallowly:
  * the 2D integer grid (list of lists, only ever indexed at valid positions)
    becomes a function ℤ → ℤ → ℕ together with explicit row/column bounds;
  * the revealed mask and the flag dictionary become finite sets of coordinates;
  * random.sample is abstracted by an explicit list of chosen linear indices,
    constrained by the predicates isSample / acceptedSample that state exactly
    what the sampling call and the rejection loop in generate_mines guarantee
    on return;
  * event dispatch (on_fail, on_success, on_flag_place, on_flag_remove)
    becomes an explicit list of emitted events.
All graphics, audio and sprite bookkeeping of the source is ignored: it never
reads or writes the grid, the revealed mask or the flags.
-/

namespace MS

/-- The eight Moore-neighbourhood offsets, in the order of the Ordinal enum of
constants.py (NORTH .. NORTH_WEST). -/
def Ordinal : List (ℤ × ℤ) :=
  [(1, 0), (1, -1), (0, -1), (-1, -1), (-1, 0), (-1, 1), (0, 1), (1, 1)]

/-- Coordinates of the eight cells around p, as enqueued by the flood fill
(row + dy, column + dx for each Ordinal offset). -/
def nbrs (p : ℤ × ℤ) : List (ℤ × ℤ) :=
  Ordinal.map (fun d => (p.1 + d.1, p.2 + d.2))

/-- Bounds check of Minefield.valid_index: 0 <= row < rows and
0 <= column < columns. -/
def validIdx (rows columns : ℕ) (r c : ℤ) : Prop :=
  0 ≤ r ∧ r < (rows : ℤ) ∧ 0 ≤ c ∧ c < (columns : ℤ)

instance (rows columns : ℕ) (r c : ℤ) : Decidable (validIdx rows columns r c) := by
  unfold validIdx; infer_instance

/-- The Minefield class: a rows x columns grid of small integers where the
value 9 (Minefield.MINE) marks a mine, plus the _empty flag set by __init__
and cleared by generate_mines. -/
structure Minefield where
  rows : ℕ
  columns : ℕ
  grid : ℤ → ℤ → ℕ
  mfEmpty : Bool

/-- Minefield.__init__: an all-zero grid with _empty = True. -/
def Minefield.create (rows columns : ℕ) : Minefield :=
  ⟨rows, columns, fun _ _ => 0, true⟩

/-- Minefield.MINE. -/
def MINE : ℕ := 9

/-- Minefield.valid_index. -/
def Minefield.valid_index (m : Minefield) (r c : ℤ) : Prop :=
  validIdx m.rows m.columns r c

instance (m : Minefield) (r c : ℤ) : Decidable (m.valid_index r c) := by
  unfold Minefield.valid_index; infer_instance

/-- Minefield.area: rows * columns. -/
def Minefield.area (m : Minefield) : ℕ := m.rows * m.columns

/-- The set of in-bounds coordinates of the grid. -/
def Minefield.validCells (m : Minefield) : Finset (ℤ × ℤ) :=
  (Finset.range m.rows ×ˢ Finset.range m.columns).image
    (fun rc => ((rc.1 : ℤ), (rc.2 : ℤ)))

/-- Minefield.get_adjacents: the up-to-8 valid neighbour coordinates, in the
source's enumeration order. -/
def Minefield.get_adjacents (m : Minefield) (r c : ℤ) : List (ℤ × ℤ) :=
  [(r - 1, c - 1), (r - 1, c), (r - 1, c + 1),
   (r, c - 1), (r, c + 1),
   (r + 1, c - 1), (r + 1, c), (r + 1, c + 1)].filter
    (fun a => decide (m.valid_index a.1 a.2))

/-- Minefield.get_mines: all in-bounds coordinates whose cell is MINE,
as a finite set (the source returns them as a tuple of (row, column) pairs). -/
def Minefield.get_mines (m : Minefield) : Finset (ℕ × ℕ) :=
  (Finset.range m.rows ×ˢ Finset.range m.columns).filter
    (fun rc => m.grid rc.1 rc.2 = MINE)

/-- Pointwise update of the grid function; models one assignment
grid[r][c] = v. -/
def updGrid (g : ℤ → ℤ → ℕ) (r c : ℤ) (v : ℕ) : ℤ → ℤ → ℕ :=
  fun r' c' => if r' = r ∧ c' = c then v else g r' c'

/-- The loop body of generate_mines: for each chosen linear position set
grid[pos // columns][pos % columns] = MINE; also clears _empty. The list
positions abstracts the sample drawn by random.sample after the rejection
loop has accepted it. -/
def Minefield.generate_mines (m : Minefield) (positions : List ℕ) : Minefield :=
  { m with
    mfEmpty := false,
    grid := positions.foldl
      (fun g p => updGrid g ((p / m.columns : ℕ) : ℤ) ((p % m.columns : ℕ) : ℤ) MINE)
      m.grid }

/-- The inner count of generate_surroundings: the number of Ordinal offsets d
such that (r + dy, c + dx) is a valid index holding MINE in the grid g. -/
def countAdj (rows columns : ℕ) (g : ℤ → ℤ → ℕ) (r c : ℤ) : ℕ :=
  Ordinal.countP (fun d =>
    decide (validIdx rows columns (r + d.1) (c + d.2)) &&
    decide (g (r + d.1) (c + d.2) = MINE))

/-- All (row, column) index pairs in row-major order, as iterated by the
nested for loops of generate_surroundings and uncover_all. -/
def cellList (rows columns : ℕ) : List (ℕ × ℕ) :=
  List.product (List.range rows) (List.range columns)

/-- One iteration of generate_surroundings: skip the cell if its value is
nonzero, otherwise store the count of surrounding mines (read from the
current, partially updated grid, exactly as the source does). -/
def surrStep (rows columns : ℕ) (g : ℤ → ℤ → ℕ) (rc : ℕ × ℕ) : ℤ → ℤ → ℕ :=
  if g rc.1 rc.2 ≠ 0 then g
  else updGrid g rc.1 rc.2 (countAdj rows columns g rc.1 rc.2)

/-- Minefield.generate_surroundings: the row-major in-place pass over the
grid. -/
def Minefield.generate_surroundings (m : Minefield) : Minefield :=
  { m with grid := (cellList m.rows m.columns).foldl (surrStep m.rows m.columns) m.grid }

/-- Minefield.generate: generate_mines followed by generate_surroundings. -/
def Minefield.generate (m : Minefield) (positions : List ℕ) : Minefield :=
  (m.generate_mines positions).generate_surroundings

/-- What one successful call random.sample(range(area), k) returns: a
duplicate-free list of k linear indices below area. -/
def isSample (area k : ℕ) (l : List ℕ) : Prop :=
  l.Nodup ∧ l.length = k ∧ ∀ p ∈ l, p < area

/-- The postcondition of the sampling phase of generate_mines(n, clear):
after n is clamped by min(n, area), the accepted list is a sample of the
clamped size and, when a clear position was supplied, the rejection loop
has resampled until the clear position is absent. -/
def acceptedSample (m : Minefield) (n : ℤ) (clear : Option ℕ) (l : List ℕ) : Prop :=
  isSample m.area (min n (m.area : ℤ)).toNat l ∧ ∀ s, clear = some s → s ∉ l

/-- Minefield.generate with the ValueError of random.sample made explicit:
the call fails (returns none) when the clamped mine count min(n, area) is
negative, since random.sample raises on a negative sample size; generate_mines
performs no lower clamp of n. -/
def Minefield.generateChecked (m : Minefield) (n : ℤ) (l : List ℕ) :
    Option Minefield :=
  if 0 ≤ min n (m.area : ℤ) then some (m.generate l) else none

/-- The rejection loop of generate_mines(n, some clear) can exit: some
possible sample of the clamped size avoids the clear position. If no such
sample exists, every iteration of the while loop redraws a sample containing
the clear position and the loop runs forever. -/
def canExit (m : Minefield) (n : ℤ) (clear : Option ℕ) : Prop :=
  ∃ l, acceptedSample m n clear l

theorem mem_validCells {m : Minefield} {p : ℤ × ℤ} :
    p ∈ m.validCells ↔ m.valid_index p.1 p.2 := by
  simp only [Minefield.validCells, Finset.mem_image, Finset.mem_product,
    Finset.mem_range, Minefield.valid_index, validIdx]
  constructor
  · rintro ⟨⟨a, b⟩, ⟨ha, hb⟩, rfl⟩
    refine ⟨?_, ?_, ?_, ?_⟩ <;> omega
  · rintro ⟨h1, h2, h3, h4⟩
    refine ⟨(p.1.toNat, p.2.toNat), ⟨by omega, by omega⟩, ?_⟩
    simp only [Prod.ext_iff]
    exact ⟨by omega, by omega⟩

theorem sdiff_insert_card_lt {α : Type} [DecidableEq α] {V u : Finset α}
    {p : α} (hp : p ∈ V \ u) :
    (V \ insert p u).card < (V \ u).card := by
  apply Finset.card_lt_card
  constructor
  · intro x hx
    rw [Finset.mem_sdiff] at hx ⊢
    exact ⟨hx.1, fun hxu => hx.2 (Finset.mem_insert_of_mem hxu)⟩
  · intro hsub
    have := hsub hp
    rw [Finset.mem_sdiff, Finset.mem_insert] at this
    exact this.2 (Or.inl rfl)

/-- Minefield.minesweep's breadth-first loop: pop the queue head p; skip it
when invalid or already uncovered; mark it uncovered, additionally enqueuing
all eight neighbours when its value is 0. -/
def Minefield.sweepAux (m : Minefield) (q : List (ℤ × ℤ)) (u : Finset (ℤ × ℤ)) :
    Finset (ℤ × ℤ) :=
  match q with
  | [] => u
  | p :: q' =>
    if ¬ m.valid_index p.1 p.2 ∨ p ∈ u then
      m.sweepAux q' u
    else if m.grid p.1 p.2 ≠ 0 then
      m.sweepAux q' (insert p u)
    else
      m.sweepAux (q' ++ nbrs p) (insert p u)
termination_by 8 * (m.validCells \ u).card + q.length
decreasing_by
  · simp only [List.length_cons]; omega
  · have hp : p ∈ m.validCells \ u := by
      rw [Finset.mem_sdiff, MS.mem_validCells]; tauto
    have hlt : ((m.validCells \ insert p u).card) < (m.validCells \ u).card :=
      MS.sdiff_insert_card_lt hp
    simp only [List.length_cons]; omega
  · have hp : p ∈ m.validCells \ u := by
      rw [Finset.mem_sdiff, MS.mem_validCells]; tauto
    have hlt : ((m.validCells \ insert p u).card) < (m.validCells \ u).card :=
      MS.sdiff_insert_card_lt hp
    have h8 : (nbrs p).length = 8 := by simp [nbrs, Ordinal]
    simp only [List.length_append, h8, List.length_cons]
    omega

/-- Minefield.minesweep: flood fill from (row, column) into a fresh all-false
uncovered mask (the mask is the finite set of uncovered coordinates); an
invalid start returns the empty mask. -/
def Minefield.minesweep (m : Minefield) (row column : ℤ) : Finset (ℤ × ℤ) :=
  if m.valid_index row column then m.sweepAux [(row, column)] ∅ else ∅

/-- Two grids with the same mine pattern (the value MINE at exactly the same
coordinates). -/
def mineEq (g g0 : ℤ → ℤ → ℕ) : Prop :=
  ∀ r c : ℤ, g r c = MINE ↔ g0 r c = MINE

/-- The events a Checkerboard dispatches that concern the game model:
on_fail with the detonated coordinate, on_success, and the flag
notifications. -/
inductive Ev where
  | fail (r c : ℤ)
  | success
  | flagPlace
  | flagRemove
deriving DecidableEq, Repr

/-- The game-model state of the Checkerboard class: board dimensions, the
configured mine count self.mines, the owned Minefield, the revealed mask and
the set of flagged coordinates (the keys of the self.flags dict). -/
structure Checkerboard where
  rows : ℕ
  columns : ℕ
  mines : ℤ
  grid : Minefield
  revealed : Finset (ℤ × ℤ)
  flags : Finset (ℤ × ℤ)

/-- Checkerboard.uncover: mark (row, column) revealed; on a MINE dispatch
on_fail and return at once (skipping the flag removal); otherwise dispatch
on_success exactly when area - revealedCount equals self.mines, then pop a
flag at that position (dispatching on_flag_remove) if one is present. -/
def Checkerboard.uncover (b : Checkerboard) (r c : ℤ) : Checkerboard × List Ev :=
  let rev' := insert (r, c) b.revealed
  if b.grid.grid r c = MINE then
    ({ b with revealed := rev' }, [Ev.fail r c])
  else
    let sevs := if (b.grid.area : ℤ) - (rev'.card : ℤ) = b.mines then [Ev.success] else []
    if (r, c) ∈ b.flags then
      ({ b with revealed := rev', flags := b.flags.erase (r, c) }, sevs ++ [Ev.flagRemove])
    else
      ({ b with revealed := rev' }, sevs)

/-- One iteration of the nested loops of uncover_all: uncover cell rc when
the diff holds it and it is not yet revealed, accumulating emitted events and
the iteration count. -/
def ucStep (d : Finset (ℤ × ℤ)) (acc : Checkerboard × List Ev × ℕ) (rc : ℕ × ℕ) :
    Checkerboard × List Ev × ℕ :=
  if ((rc.1 : ℤ), (rc.2 : ℤ)) ∈ d ∧ ((rc.1 : ℤ), (rc.2 : ℤ)) ∉ acc.1.revealed then
    ((acc.1.uncover (rc.1 : ℤ) (rc.2 : ℤ)).1,
     acc.2.1 ++ (acc.1.uncover (rc.1 : ℤ) (rc.2 : ℤ)).2, acc.2.2 + 1)
  else acc

/-- Checkerboard.uncover_all: visit every board cell in row-major order and
uncover those in the diff that are not yet revealed, returning the new state,
the emitted events and the number of cells uncovered. -/
def Checkerboard.uncover_all (b : Checkerboard) (d : Finset (ℤ × ℤ)) :
    Checkerboard × List Ev × ℕ :=
  (cellList b.rows b.columns).foldl (ucStep d) (b, [], 0)

/-- The lazy generation at the top of minesweep_from_cell: when the grid is
still empty, generate it (with safe index row * columns + column; ps
abstracts the sample the rejection loop accepted). -/
def Checkerboard.genIfEmpty (b : Checkerboard) (ps : List ℕ) : Checkerboard :=
  if b.grid.mfEmpty then { b with grid := b.grid.generate ps } else b

/-- Checkerboard.minesweep_from_cell: when the grid is still empty, first
generate it; then, unless the cell is flagged, invalid or already revealed,
flood fill from the cell and uncover the resulting diff. -/
def Checkerboard.minesweep_from_cell (b : Checkerboard) (ps : List ℕ) (r c : ℤ) :
    Checkerboard × List Ev :=
  if (r, c) ∉ (b.genIfEmpty ps).flags ∧ (b.genIfEmpty ps).grid.valid_index r c ∧
      (r, c) ∉ (b.genIfEmpty ps).revealed then
    (((b.genIfEmpty ps).uncover_all ((b.genIfEmpty ps).grid.minesweep r c)).1,
     ((b.genIfEmpty ps).uncover_all ((b.genIfEmpty ps).grid.minesweep r c)).2.1)
  else (b.genIfEmpty ps, [])

/-- Checkerboard.toggle_flag: remove the flag at (row, column) if present
(returning false), else place one if the cell is valid and unrevealed
(returning true), else do nothing (returning none). -/
def Checkerboard.toggle_flag (b : Checkerboard) (r c : ℤ) :
    Checkerboard × List Ev × Option Bool :=
  if (r, c) ∈ b.flags then
    ({ b with flags := b.flags.erase (r, c) }, [Ev.flagRemove], some false)
  else if b.grid.valid_index r c ∧ (r, c) ∉ b.revealed then
    ({ b with flags := insert (r, c) b.flags }, [Ev.flagPlace], some true)
  else
    (b, [], none)

/-- One iteration of the chording loop: run minesweep_from_cell on the
adjacent cell a, threading the board state and concatenating events. -/
def chordStep (ps : List ℕ) (acc : Checkerboard × List Ev) (a : ℤ × ℤ) :
    Checkerboard × List Ev :=
  ((acc.1.minesweep_from_cell ps a.1 a.2).1,
   acc.2 ++ (acc.1.minesweep_from_cell ps a.1 a.2).2)

/-- The middle-button branch of Checkerboard.on_mouse_press (chording): on a
valid revealed cell, count the flags among its adjacents; when that count
equals the cell's stored value, run minesweep_from_cell on every adjacent in
order, threading the state and concatenating the emitted events. -/
def Checkerboard.chord (b : Checkerboard) (ps : List ℕ) (r c : ℤ) :
    Checkerboard × List Ev :=
  if b.grid.valid_index r c ∧ (r, c) ∈ b.revealed then
    if (b.grid.get_adjacents r c).countP (fun a => decide (a ∈ b.flags)) =
        b.grid.grid r c then
      (b.grid.get_adjacents r c).foldl (chordStep ps) (b, [])
    else (b, [])
  else (b, [])

/-! Lemmas about mine generation (generate_mines, generate_surroundings). -/

theorem countP_Ordinal_le_eight (p : ℤ × ℤ → Bool) : Ordinal.countP p ≤ 8 :=
  le_trans (List.countP_le_length p) (by simp [Ordinal])

theorem countAdj_le_eight (rows columns : ℕ) (g : ℤ → ℤ → ℕ) (r c : ℤ) :
    countAdj rows columns g r c ≤ 8 :=
  countP_Ordinal_le_eight _

theorem countAdj_ne_MINE (rows columns : ℕ) (g : ℤ → ℤ → ℕ) (r c : ℤ) :
    countAdj rows columns g r c ≠ MINE := by
  have := countAdj_le_eight rows columns g r c
  unfold MINE
  omega

theorem mineEq_refl (g : ℤ → ℤ → ℕ) : mineEq g g := fun _ _ => Iff.rfl

theorem mineEq_trans {g1 g2 g3 : ℤ → ℤ → ℕ} (h1 : mineEq g1 g2)
    (h2 : mineEq g2 g3) : mineEq g1 g3 :=
  fun r c => (h1 r c).trans (h2 r c)

theorem countAdj_congr {g g0 : ℤ → ℤ → ℕ} (h : mineEq g g0)
    (rows columns : ℕ) (r c : ℤ) :
    countAdj rows columns g r c = countAdj rows columns g0 r c := by
  apply List.countP_congr
  intro d _
  have hg : (decide (g (r + d.1) (c + d.2) = MINE)) =
      (decide (g0 (r + d.1) (c + d.2) = MINE)) :=
    decide_eq_decide.mpr (h (r + d.1) (c + d.2))
  simp only [hg]

theorem foldMines_grid (columns : ℕ) (ps : List ℕ) (g : ℤ → ℤ → ℕ) (r c : ℤ) :
    (ps.foldl
      (fun g p => updGrid g ((p / columns : ℕ) : ℤ) ((p % columns : ℕ) : ℤ) MINE) g) r c =
    if ∃ p ∈ ps, ((p / columns : ℕ) : ℤ) = r ∧ ((p % columns : ℕ) : ℤ) = c
    then MINE else g r c := by
  induction ps generalizing g with
  | nil => simp
  | cons q t ih =>
    simp only [List.foldl_cons]
    rw [ih]
    by_cases hq : ((q / columns : ℕ) : ℤ) = r ∧ ((q % columns : ℕ) : ℤ) = c
    · have hex : ∃ p ∈ q :: t,
          ((p / columns : ℕ) : ℤ) = r ∧ ((p % columns : ℕ) : ℤ) = c :=
        ⟨q, List.mem_cons_self q t, hq⟩
      rw [if_pos hex]
      by_cases ht : ∃ p ∈ t,
          ((p / columns : ℕ) : ℤ) = r ∧ ((p % columns : ℕ) : ℤ) = c
      · rw [if_pos ht]
      · rw [if_neg ht]
        simp only [updGrid]
        rw [if_pos ⟨hq.1.symm, hq.2.symm⟩]
    · have hiff : (∃ p ∈ q :: t,
          ((p / columns : ℕ) : ℤ) = r ∧ ((p % columns : ℕ) : ℤ) = c) ↔
          (∃ p ∈ t, ((p / columns : ℕ) : ℤ) = r ∧ ((p % columns : ℕ) : ℤ) = c) := by
        constructor
        · rintro ⟨p, hp, hpe⟩
          rcases List.mem_cons.mp hp with rfl | hp'
          · exact absurd hpe hq
          · exact ⟨p, hp', hpe⟩
        · rintro ⟨p, hp, hpe⟩
          exact ⟨p, List.mem_cons_of_mem _ hp, hpe⟩
      by_cases ht : ∃ p ∈ t,
          ((p / columns : ℕ) : ℤ) = r ∧ ((p % columns : ℕ) : ℤ) = c
      · rw [if_pos ht, if_pos (hiff.mpr ht)]
      · rw [if_neg ht, if_neg (fun hx => ht (hiff.mp hx))]
        simp only [updGrid]
        rw [if_neg (fun hx => hq ⟨hx.1.symm, hx.2.symm⟩)]

theorem generate_mines_grid (m : Minefield) (ps : List ℕ) (r c : ℤ) :
    (m.generate_mines ps).grid r c =
    if ∃ p ∈ ps, ((p / m.columns : ℕ) : ℤ) = r ∧ ((p % m.columns : ℕ) : ℤ) = c
    then MINE else m.grid r c :=
  foldMines_grid m.columns ps m.grid r c

theorem generate_mines_rows (m : Minefield) (ps : List ℕ) :
    (m.generate_mines ps).rows = m.rows := rfl

theorem generate_mines_columns (m : Minefield) (ps : List ℕ) :
    (m.generate_mines ps).columns = m.columns := rfl

theorem generate_surroundings_rows (m : Minefield) :
    m.generate_surroundings.rows = m.rows := rfl

theorem generate_surroundings_columns (m : Minefield) :
    m.generate_surroundings.columns = m.columns := rfl

theorem create_rows (rows columns : ℕ) :
    (Minefield.create rows columns).rows = rows := rfl

theorem create_columns (rows columns : ℕ) :
    (Minefield.create rows columns).columns = columns := rfl

theorem create_grid (rows columns : ℕ) (r c : ℤ) :
    (Minefield.create rows columns).grid r c = 0 := rfl

theorem mem_cellList {rows columns : ℕ} {rc : ℕ × ℕ} :
    rc ∈ cellList rows columns ↔ rc.1 < rows ∧ rc.2 < columns := by
  obtain ⟨a, b⟩ := rc
  simp [cellList, List.mem_product]

theorem nodup_cellList (rows columns : ℕ) : (cellList rows columns).Nodup :=
  (List.nodup_range rows).product (List.nodup_range columns)

theorem surrStep_mineEq (rows columns : ℕ) (g : ℤ → ℤ → ℕ) (rc : ℕ × ℕ) :
    mineEq (surrStep rows columns g rc) g := by
  intro r c
  unfold surrStep
  by_cases hz : g (rc.1 : ℤ) (rc.2 : ℤ) ≠ 0
  · rw [if_pos hz]
  · rw [if_neg hz]
    push_neg at hz
    unfold updGrid
    by_cases hx : r = (rc.1 : ℤ) ∧ c = (rc.2 : ℤ)
    · rw [if_pos hx]
      obtain ⟨rfl, rfl⟩ := hx
      rw [hz]
      constructor
      · intro h; exact absurd h (countAdj_ne_MINE rows columns g _ _)
      · intro h; exact absurd h.symm (by unfold MINE; omega)
    · rw [if_neg hx]

theorem surrStep_miss (rows columns : ℕ) (g : ℤ → ℤ → ℕ) (rc : ℕ × ℕ)
    (x : ℤ × ℤ) (hx : ¬ (x.1 = (rc.1 : ℤ) ∧ x.2 = (rc.2 : ℤ))) :
    surrStep rows columns g rc x.1 x.2 = g x.1 x.2 := by
  unfold surrStep
  by_cases hz : g (rc.1 : ℤ) (rc.2 : ℤ) ≠ 0
  · rw [if_pos hz]
  · rw [if_neg hz]
    unfold updGrid
    rw [if_neg hx]

theorem surrFold_miss (rows columns : ℕ) (L : List (ℕ × ℕ)) (g : ℤ → ℤ → ℕ)
    (x : ℤ × ℤ) (hx : ∀ rc ∈ L, ¬ (x.1 = (rc.1 : ℤ) ∧ x.2 = (rc.2 : ℤ))) :
    (L.foldl (surrStep rows columns) g) x.1 x.2 = g x.1 x.2 := by
  induction L generalizing g with
  | nil => rfl
  | cons h t ih =>
    simp only [List.foldl_cons]
    rw [ih _ (fun rc hrc => hx rc (List.mem_cons_of_mem _ hrc))]
    exact surrStep_miss rows columns g h x (hx h (List.mem_cons_self h t))

theorem surrFold_mem (rows columns : ℕ) (L : List (ℕ × ℕ)) :
    ∀ (g g0 : ℤ → ℤ → ℕ), L.Nodup →
    (∀ rc ∈ L, g (rc.1 : ℤ) (rc.2 : ℤ) = g0 (rc.1 : ℤ) (rc.2 : ℤ)) →
    mineEq g g0 →
    ∀ rc ∈ L, (L.foldl (surrStep rows columns) g) (rc.1 : ℤ) (rc.2 : ℤ) =
      if g0 (rc.1 : ℤ) (rc.2 : ℤ) ≠ 0 then g0 (rc.1 : ℤ) (rc.2 : ℤ)
      else countAdj rows columns g0 (rc.1 : ℤ) (rc.2 : ℤ) := by
  induction L with
  | nil => intro g g0 _ _ _ rc hrc; exact absurd hrc (List.not_mem_nil rc)
  | cons h t ih =>
    intro g g0 hnd hkeep hme rc hrc
    obtain ⟨hht, hndt⟩ := List.nodup_cons.mp hnd
    have hnecast : ∀ rc' : ℕ × ℕ, rc' ∈ t →
        ¬ (((h.1 : ℕ) : ℤ) = (rc'.1 : ℤ) ∧ ((h.2 : ℕ) : ℤ) = (rc'.2 : ℤ)) := by
      intro rc' hrc' hx
      apply hht
      have : h = rc' := by
        obtain ⟨hx1, hx2⟩ := hx
        exact Prod.ext (by exact_mod_cast hx1) (by exact_mod_cast hx2)
      rw [this]; exact hrc'
    have hkeep1 : ∀ rc' ∈ t,
        surrStep rows columns g h (rc'.1 : ℤ) (rc'.2 : ℤ) =
        g (rc'.1 : ℤ) (rc'.2 : ℤ) := by
      intro rc' hrc'
      exact surrStep_miss rows columns g h ((rc'.1 : ℤ), (rc'.2 : ℤ))
        (fun hx => hnecast rc' hrc' ⟨hx.1.symm, hx.2.symm⟩)
    have hme1 : mineEq (surrStep rows columns g h) g0 :=
      mineEq_trans (surrStep_mineEq rows columns g h) hme
    simp only [List.foldl_cons]
    rcases List.mem_cons.mp hrc with heq | hrct
    · subst heq
      have hmiss : (t.foldl (surrStep rows columns) (surrStep rows columns g rc))
          (rc.1 : ℤ) (rc.2 : ℤ) = surrStep rows columns g rc (rc.1 : ℤ) (rc.2 : ℤ) :=
        surrFold_miss rows columns t (surrStep rows columns g rc)
          ((rc.1 : ℤ), (rc.2 : ℤ)) (fun rc' hrc' hx => hnecast rc' hrc' hx)
      rw [hmiss]
      unfold surrStep
      by_cases hz : g (rc.1 : ℤ) (rc.2 : ℤ) ≠ 0
      · rw [if_pos hz]
        rw [hkeep rc (List.mem_cons_self rc t)] at hz ⊢
        rw [if_pos hz]
      · rw [if_neg hz]
        push_neg at hz
        have hz0 : g0 (rc.1 : ℤ) (rc.2 : ℤ) = 0 := by
          rw [← hkeep rc (List.mem_cons_self rc t)]; exact hz
        rw [hz0]
        simp only [ne_eq, not_true_eq_false, if_false, not_not]
        unfold updGrid
        rw [if_pos ⟨rfl, rfl⟩]
        exact countAdj_congr hme rows columns _ _
    · apply ih (surrStep rows columns g h) g0 hndt
      · intro rc' hrc'
        rw [hkeep1 rc' hrc']
        exact hkeep rc' (List.mem_cons_of_mem _ hrc')
      · exact hme1
      · exact hrct

theorem generate_surroundings_grid (m : Minefield) (r c : ℕ)
    (hr : r < m.rows) (hc : c < m.columns) :
    m.generate_surroundings.grid (r : ℤ) (c : ℤ) =
      if m.grid (r : ℤ) (c : ℤ) ≠ 0 then m.grid (r : ℤ) (c : ℤ)
      else countAdj m.rows m.columns m.grid (r : ℤ) (c : ℤ) := by
  have := surrFold_mem m.rows m.columns (cellList m.rows m.columns)
    m.grid m.grid (nodup_cellList m.rows m.columns)
    (fun _ _ => rfl) (mineEq_refl m.grid) (r, c) (mem_cellList.mpr ⟨hr, hc⟩)
  exact this

theorem generate_surroundings_out (m : Minefield) (r c : ℤ)
    (h : ¬ m.valid_index r c) :
    m.generate_surroundings.grid r c = m.grid r c := by
  apply surrFold_miss m.rows m.columns (cellList m.rows m.columns) m.grid (r, c)
  intro rc hrc hx
  apply h
  obtain ⟨h1, h2⟩ := mem_cellList.mp hrc
  have hx1 : r = (rc.1 : ℤ) := hx.1
  have hx2 : c = (rc.2 : ℤ) := hx.2
  exact ⟨by omega, by omega, by omega, by omega⟩

theorem generate_surroundings_mineEq (m : Minefield) :
    mineEq m.generate_surroundings.grid m.grid := by
  intro r c
  by_cases h : m.valid_index r c
  · obtain ⟨h1, h2, h3, h4⟩ := h
    have key := generate_surroundings_grid m r.toNat c.toNat (by omega) (by omega)
    have e1 : ((r.toNat : ℕ) : ℤ) = r := by omega
    have e2 : ((c.toNat : ℕ) : ℤ) = c := by omega
    rw [e1, e2] at key
    rw [key]
    by_cases hz : m.grid r c ≠ 0
    · rw [if_pos hz]
    · rw [if_neg hz]
      push_neg at hz
      rw [hz]
      constructor
      · intro hcontra
        exact absurd hcontra (countAdj_ne_MINE _ _ _ _ _)
      · intro hcontra; exact absurd hcontra.symm (by unfold MINE; omega)
  · rw [generate_surroundings_out m r c h]

theorem generate_grid_eq (rows columns : ℕ) (ps : List ℕ) (r c : ℕ)
    (hr : r < rows) (hc : c < columns) :
    ((Minefield.create rows columns).generate ps).grid (r : ℤ) (c : ℤ) =
      if ∃ p ∈ ps, ((p / columns : ℕ) : ℤ) = (r : ℤ) ∧
          ((p % columns : ℕ) : ℤ) = (c : ℤ)
      then MINE
      else countAdj rows columns
        ((Minefield.create rows columns).generate_mines ps).grid (r : ℤ) (c : ℤ) := by
  unfold Minefield.generate
  rw [generate_surroundings_grid _ r c hr hc]
  rw [generate_mines_grid]
  simp only [create_rows, create_columns, create_grid, generate_mines_rows,
    generate_mines_columns]
  by_cases hex : ∃ p ∈ ps, ((p / columns : ℕ) : ℤ) = (r : ℤ) ∧
      ((p % columns : ℕ) : ℤ) = (c : ℤ)
  · rw [if_pos hex, if_pos hex]
    rw [if_pos (by unfold MINE; omega)]
  · rw [if_neg hex, if_neg hex]
    simp only [ne_eq, not_true_eq_false, if_false, not_not]

theorem generate_rows (m : Minefield) (ps : List ℕ) :
    (m.generate ps).rows = m.rows := rfl

theorem generate_columns (m : Minefield) (ps : List ℕ) :
    (m.generate ps).columns = m.columns := rfl

theorem generate_mineEq (m : Minefield) (ps : List ℕ) :
    mineEq (m.generate ps).grid (m.generate_mines ps).grid :=
  generate_surroundings_mineEq (m.generate_mines ps)

/-- C1: for every grid and safe linear index, whenever generate(n, safe)
returns — that is, whenever the rejection loop has accepted a sample, which
by construction excludes the safe index — the cell at
(safe // columns, safe % columns) does not hold MINE. -/
theorem safe_cell_not_mine (rows columns : ℕ) (n : ℤ) (safe : ℕ) (ps : List ℕ)
    (hsafe : safe < rows * columns)
    (hacc : acceptedSample (Minefield.create rows columns) n (some safe) ps) :
    ((Minefield.create rows columns).generate ps).grid
      ((safe / columns : ℕ) : ℤ) ((safe % columns : ℕ) : ℤ) ≠ MINE := by
  have hcols : 0 < columns := by
    rcases Nat.eq_zero_or_pos columns with h0 | h
    · subst h0; rw [Nat.mul_zero] at hsafe; omega
    · exact h
  have hr : safe / columns < rows := (Nat.div_lt_iff_lt_mul hcols).mpr hsafe
  have hc : safe % columns < columns := Nat.mod_lt _ hcols
  rw [generate_grid_eq rows columns ps _ _ hr hc]
  have hnotex : ¬ ∃ p ∈ ps,
      ((p / columns : ℕ) : ℤ) = ((safe / columns : ℕ) : ℤ) ∧
      ((p % columns : ℕ) : ℤ) = ((safe % columns : ℕ) : ℤ) := by
    rintro ⟨p, hp, h1, h2⟩
    have e1 : p / columns = safe / columns := by exact_mod_cast h1
    have e2 : p % columns = safe % columns := by exact_mod_cast h2
    have d1 := Nat.div_add_mod p columns
    have d2 := Nat.div_add_mod safe columns
    rw [e1, e2] at d1
    have : p = safe := by omega
    exact hacc.2 safe rfl (this ▸ hp)
  rw [if_neg hnotex]
  exact countAdj_ne_MINE _ _ _ _ _

theorem safe_cell_not_mine_witness :
    0 < 2 * 2 ∧
    acceptedSample (Minefield.create 2 2) 1 (some 0) [3] ∧
    ((Minefield.create 2 2).generate [3]).grid ((0 / 2 : ℕ) : ℤ)
      ((0 % 2 : ℕ) : ℤ) ≠ MINE := by
  have hacc : acceptedSample (Minefield.create 2 2) 1 (some 0) [3] := by
    refine ⟨⟨by decide, by decide, by decide⟩, ?_⟩
    intro s hs
    have hs' : s = 0 := by injection hs with h; exact h.symm
    subst hs'
    decide
  exact ⟨by decide, hacc, safe_cell_not_mine 2 2 1 0 [3] (by decide) hacc⟩

/-- C2: after generate completes, every in-bounds non-mine cell holds exactly
the number of MINE cells among its valid Moore neighbours (the Ordinal
offsets with the valid_index guard), and this count is at most 8. -/
theorem nonmine_cell_counts_neighbors (rows columns : ℕ) (ps : List ℕ)
    (r c : ℕ) (hr : r < rows) (hc : c < columns)
    (hnm : ((Minefield.create rows columns).generate ps).grid (r : ℤ) (c : ℤ) ≠ MINE) :
    ((Minefield.create rows columns).generate ps).grid (r : ℤ) (c : ℤ) =
      countAdj rows columns
        ((Minefield.create rows columns).generate ps).grid (r : ℤ) (c : ℤ) ∧
    ((Minefield.create rows columns).generate ps).grid (r : ℤ) (c : ℤ) ≤ 8 := by
  have key := generate_grid_eq rows columns ps r c hr hc
  by_cases hex : ∃ p ∈ ps, ((p / columns : ℕ) : ℤ) = (r : ℤ) ∧
      ((p % columns : ℕ) : ℤ) = (c : ℤ)
  · rw [key, if_pos hex] at hnm
    exact absurd rfl hnm
  · rw [key, if_neg hex]
    constructor
    · exact (countAdj_congr (generate_mineEq (Minefield.create rows columns) ps)
        rows columns (r : ℤ) (c : ℤ)).symm
    · exact countAdj_le_eight _ _ _ _ _

theorem nonmine_cell_counts_neighbors_witness :
    (0 < 1 ∧ 0 < 2 ∧
      ((Minefield.create 1 2).generate [1]).grid ((0 : ℕ) : ℤ) ((0 : ℕ) : ℤ) ≠ MINE) ∧
    (((Minefield.create 1 2).generate [1]).grid ((0 : ℕ) : ℤ) ((0 : ℕ) : ℤ) =
      countAdj 1 2 ((Minefield.create 1 2).generate [1]).grid
        ((0 : ℕ) : ℤ) ((0 : ℕ) : ℤ) ∧
      ((Minefield.create 1 2).generate [1]).grid ((0 : ℕ) : ℤ) ((0 : ℕ) : ℤ) ≤ 8) :=
  ⟨⟨by decide, by decide, by decide⟩,
    nonmine_cell_counts_neighbors 1 2 [1] 0 0 (by decide) (by decide) (by decide)⟩

/-- C6 counterexample: generate(-1) does not clamp the mine count below by 0;
the clamped count min(-1, area) stays -1 and random.sample raises ValueError,
so no grid with 0 mines is produced, contradicting the claim that n is
clamped to the range 0..area. -/
theorem mine_clamp_counterexample :
    ¬ ∃ m' : Minefield, (Minefield.create 1 1).generateChecked (-1) [] = some m' := by
  rintro ⟨m', h⟩
  unfold Minefield.generateChecked at h
  rw [if_neg (by decide)] at h
  exact Option.noConfusion h

/-- C6 amended: for every requested mine count n that is at least 0, generate
clamps n above by the grid area and places exactly min(n, area) distinct
mines, so get_mines has cardinality min(n, area); for n below 0 the sampling
call raises instead of clamping (see the counterexample). -/
theorem mine_count_eq (rows columns : ℕ) (n : ℤ) (hn : 0 ≤ n)
    (clear : Option ℕ) (ps : List ℕ)
    (hacc : acceptedSample (Minefield.create rows columns) n clear ps) :
    ((Minefield.create rows columns).generate ps).get_mines.card =
      (min n ((rows * columns : ℕ) : ℤ)).toNat := by
  obtain ⟨⟨hnd, hlen, hbound⟩, _⟩ := hacc
  have hmember : ∀ a b : ℕ, a < rows → b < columns →
      (((Minefield.create rows columns).generate ps).grid (a : ℤ) (b : ℤ) = MINE ↔
        ∃ p ∈ ps, p / columns = a ∧ p % columns = b) := by
    intro a b ha hb
    rw [generate_grid_eq rows columns ps a b ha hb]
    constructor
    · intro h
      by_cases hex : ∃ p ∈ ps, ((p / columns : ℕ) : ℤ) = (a : ℤ) ∧
          ((p % columns : ℕ) : ℤ) = (b : ℤ)
      · obtain ⟨p, hp, h1, h2⟩ := hex
        exact ⟨p, hp, by exact_mod_cast h1, by exact_mod_cast h2⟩
      · rw [if_neg hex] at h
        exact absurd h (countAdj_ne_MINE _ _ _ _ _)
    · rintro ⟨p, hp, h1, h2⟩
      rw [if_pos ⟨p, hp, by exact_mod_cast h1, by exact_mod_cast h2⟩]
  have himg : ((Minefield.create rows columns).generate ps).get_mines =
      ps.toFinset.image (fun p => (p / columns, p % columns)) := by
    ext x
    obtain ⟨a, b⟩ := x
    simp only [Minefield.get_mines, Finset.mem_filter, Finset.mem_product,
      Finset.mem_range, Finset.mem_image, List.mem_toFinset, generate_rows,
      generate_columns, create_rows, create_columns]
    constructor
    · rintro ⟨⟨ha, hb⟩, hmine⟩
      obtain ⟨p, hp, h1, h2⟩ := (hmember a b ha hb).mp hmine
      exact ⟨p, hp, by rw [h1, h2]⟩
    · rintro ⟨p, hp, hfp⟩
      have hplt : p < rows * columns := hbound p hp
      have hcols : 0 < columns := by
        rcases Nat.eq_zero_or_pos columns with h0 | h
        · subst h0; rw [Nat.mul_zero] at hplt; omega
        · exact h
      have ha : p / columns < rows := (Nat.div_lt_iff_lt_mul hcols).mpr hplt
      have hb : p % columns < columns := Nat.mod_lt _ hcols
      obtain ⟨h1, h2⟩ := Prod.mk.injEq .. ▸ hfp
      subst h1; subst h2
      exact ⟨⟨ha, hb⟩, (hmember _ _ ha hb).mpr ⟨p, hp, rfl, rfl⟩⟩
  rw [himg]
  rw [Finset.card_image_of_injective _ (fun p q h => by
    have h1 : p / columns = q / columns := (Prod.mk.injEq .. ▸ h).1
    have h2 : p % columns = q % columns := (Prod.mk.injEq .. ▸ h).2
    have d1 := Nat.div_add_mod p columns
    have d2 := Nat.div_add_mod q columns
    rw [h1, h2] at d1
    omega)]
  rw [List.toFinset_card_of_nodup hnd]
  exact hlen

theorem mine_count_eq_witness :
    (0 : ℤ) ≤ 5 ∧
    ((Minefield.create 2 1).generate [0, 1]).get_mines.card =
      (min 5 ((2 * 1 : ℕ) : ℤ)).toNat :=
  ⟨by decide, mine_count_eq 2 1 5 (by decide) none [0, 1]
    ⟨⟨by decide, by decide, by decide⟩, fun _ hs => Option.noConfusion hs⟩⟩

theorem length_le_one_of_nodup_forall_eq {l : List ℕ} {s : ℕ}
    (hnd : l.Nodup) (h : ∀ x ∈ l, x = s) : l.length ≤ 1 := by
  match l with
  | [] => simp
  | [a] => simp
  | a :: b :: t =>
    exfalso
    have ha := h a (List.mem_cons_self _ _)
    have hb := h b (List.mem_cons_of_mem _ (List.mem_cons_self _ _))
    have hne : a ≠ b := by
      intro heq
      exact (List.nodup_cons.mp hnd).1 (heq ▸ List.mem_cons_self b t)
    omega

/-- C5 counterexample: on a 1x1 grid with n = 1 and safe index 0, every
possible sample of the clamped size (= the full grid) contains the safe
index, so the rejection loop of generate_mines redraws forever: no accepted
sample exists and generate(1, 0) never returns. -/
theorem resample_forever_counterexample :
    ¬ canExit (Minefield.create 1 1) 1 (some 0) := by
  rintro ⟨l, ⟨⟨hnd, hlen, hbound⟩, hclear⟩⟩
  have h0 : (0 : ℕ) ∉ l := hclear 0 rfl
  have hlen' : l.length = 1 := by simpa using hlen
  obtain ⟨a, rfl⟩ : ∃ a, l = [a] := by
    cases l with
    | nil => simp at hlen'
    | cons a t =>
      cases t with
      | nil => exact ⟨a, rfl⟩
      | cons b t' => simp at hlen'
  have ha : a < 1 := by
    have := hbound a (List.mem_cons_self a [])
    simpa [Minefield.area, Minefield.create] using this
  have : a = 0 := by omega
  subst this
  exact h0 (List.mem_cons_self 0 [])

/-- C5 amended: generate(n, safe) terminates and succeeds whenever the
clamped mine count min(n, area) is nonnegative and, when a safe index is
supplied, strictly below the grid area: some acceptable sample exists and the
checked generation returns a grid. When the clamped count equals the area and
a safe index inside the grid is supplied, no acceptable sample exists and the
rejection loop never exits (see the counterexample); when min(n, area) is
negative, random.sample raises ValueError. -/
theorem generate_can_terminate (rows columns : ℕ) (n : ℤ) (clear : Option ℕ)
    (hn : 0 ≤ min n ((rows * columns : ℕ) : ℤ))
    (hclear : ∀ s, clear = some s →
      (min n ((rows * columns : ℕ) : ℤ)).toNat < rows * columns) :
    ∃ l, acceptedSample (Minefield.create rows columns) n clear l ∧
      (Minefield.create rows columns).generateChecked n l =
        some ((Minefield.create rows columns).generate l) := by
  have hk_le : (min n ((rows * columns : ℕ) : ℤ)).toNat ≤ rows * columns := by
    have := min_le_right n ((rows * columns : ℕ) : ℤ)
    omega
  cases clear with
  | none =>
    refine ⟨(List.range (rows * columns)).take
      (min n ((rows * columns : ℕ) : ℤ)).toNat, ⟨⟨?_, ?_, ?_⟩, ?_⟩, ?_⟩
    · exact List.Nodup.sublist (List.take_sublist _ _) (List.nodup_range _)
    · rw [List.length_take, List.length_range]
      have : (Minefield.create rows columns).area = rows * columns := rfl
      rw [this]
      omega
    · intro p hp
      exact List.mem_range.mp ((List.take_sublist _ _).subset hp)
    · intro s hs
      exact Option.noConfusion hs
    · unfold Minefield.generateChecked
      simp only [Minefield.area, create_rows, create_columns]
      rw [if_pos hn]
  | some s =>
    have hk_lt : (min n ((rows * columns : ℕ) : ℤ)).toNat < rows * columns :=
      hclear s rfl
    have hcand_len : rows * columns ≤
        ((List.range (rows * columns)).filter (fun p => decide (p ≠ s))).length + 1 := by
      have hsplit : (List.range (rows * columns)).length =
          ((List.range (rows * columns)).filter (fun p => decide (p ≠ s))).length +
          ((List.range (rows * columns)).filter
            (fun p => ! decide (p ≠ s))).length :=
        List.length_eq_length_filter_add _
      have hflen : ((List.range (rows * columns)).filter
          (fun p => ! decide (p ≠ s))).length ≤ 1 := by
        apply length_le_one_of_nodup_forall_eq
          (List.Nodup.filter _ (List.nodup_range _))
        intro x hx
        have := List.of_mem_filter hx
        simp only [Bool.not_eq_true', decide_eq_false_iff_not, not_not] at this
        exact this
      rw [List.length_range] at hsplit
      omega
    refine ⟨((List.range (rows * columns)).filter (fun p => decide (p ≠ s))).take
      (min n ((rows * columns : ℕ) : ℤ)).toNat, ⟨⟨?_, ?_, ?_⟩, ?_⟩, ?_⟩
    · exact List.Nodup.sublist (List.take_sublist _ _)
        (List.Nodup.filter _ (List.nodup_range _))
    · rw [List.length_take]
      have : (Minefield.create rows columns).area = rows * columns := rfl
      rw [this]
      omega
    · intro p hp
      exact List.mem_range.mp
        (List.mem_of_mem_filter ((List.take_sublist _ _).subset hp))
    · intro s' hs'
      have hss : s' = s := by injection hs' with h; exact h.symm
      subst hss
      intro hmem
      have := List.of_mem_filter ((List.take_sublist _ _).subset hmem)
      simp at this
    · unfold Minefield.generateChecked
      simp only [Minefield.area, create_rows, create_columns]
      rw [if_pos hn]

theorem generate_can_terminate_witness :
    (0 : ℤ) ≤ min 3 ((2 * 2 : ℕ) : ℤ) ∧
    ∃ l, acceptedSample (Minefield.create 2 2) 3 (some 0) l ∧
      (Minefield.create 2 2).generateChecked 3 l =
        some ((Minefield.create 2 2).generate l) :=
  ⟨by decide, generate_can_terminate 2 2 3 (some 0) (by decide)
    (fun s _ => by decide)⟩

/-! Lemmas about the flood fill (Minefield.minesweep). -/

theorem sweepAux_nil (m : Minefield) (u : Finset (ℤ × ℤ)) :
    m.sweepAux [] u = u := by
  rw [Minefield.sweepAux]

theorem sweepAux_skip (m : Minefield) (p : ℤ × ℤ) (q' : List (ℤ × ℤ))
    (u : Finset (ℤ × ℤ)) (h : ¬ m.valid_index p.1 p.2 ∨ p ∈ u) :
    m.sweepAux (p :: q') u = m.sweepAux q' u := by
  rw [Minefield.sweepAux]
  simp only [if_pos h]

theorem sweepAux_stop (m : Minefield) (p : ℤ × ℤ) (q' : List (ℤ × ℤ))
    (u : Finset (ℤ × ℤ)) (h : ¬ (¬ m.valid_index p.1 p.2 ∨ p ∈ u))
    (hnz : m.grid p.1 p.2 ≠ 0) :
    m.sweepAux (p :: q') u = m.sweepAux q' (insert p u) := by
  rw [Minefield.sweepAux]
  simp only [if_neg h, if_pos hnz]

theorem sweepAux_go (m : Minefield) (p : ℤ × ℤ) (q' : List (ℤ × ℤ))
    (u : Finset (ℤ × ℤ)) (h : ¬ (¬ m.valid_index p.1 p.2 ∨ p ∈ u))
    (hz : m.grid p.1 p.2 = 0) :
    m.sweepAux (p :: q') u = m.sweepAux (q' ++ nbrs p) (insert p u) := by
  rw [Minefield.sweepAux]
  simp only [if_neg h, hz]
  simp

theorem sweepAux_mono (m : Minefield) (q : List (ℤ × ℤ)) (u : Finset (ℤ × ℤ)) :
    u ⊆ m.sweepAux q u := by
  induction q, u using Minefield.sweepAux.induct m with
  | case1 u => rw [sweepAux_nil]
  | case2 u p q' hcond ih => rw [sweepAux_skip m p q' u hcond]; exact ih
  | case3 u p q' hcond hnz ih =>
    rw [sweepAux_stop m p q' u hcond hnz]
    exact fun x hx => ih (Finset.mem_insert_of_mem hx)
  | case4 u p q' hcond hz ih =>
    rw [sweepAux_go m p q' u hcond (not_not.mp hz)]
    exact fun x hx => ih (Finset.mem_insert_of_mem hx)

/-- One step of zero-propagation of the flood fill, avoiding the set A: the
source cell is valid, holds 0, is not in A, and the destination is one of its
eight neighbours. -/
def zstep (m : Minefield) (A : Finset (ℤ × ℤ)) (a b : ℤ × ℤ) : Prop :=
  m.valid_index a.1 a.2 ∧ m.grid a.1 a.2 = 0 ∧ a ∉ A ∧ b ∈ nbrs a

/-- Zero-propagation paths of the flood fill avoiding the set A. -/
def zreach (m : Minefield) (A : Finset (ℤ × ℤ)) : (ℤ × ℤ) → (ℤ × ℤ) → Prop :=
  Relation.ReflTransGen (zstep m A)

/-- The cells the flood fill uncovers when started at x with visited set A:
valid cells that either end a zero-propagation path from x, or neighbour a
valid, zero-valued, unvisited endpoint of such a path. -/
def sweepTarget (m : Minefield) (A : Finset (ℤ × ℤ)) (x t : ℤ × ℤ) : Prop :=
  m.valid_index t.1 t.2 ∧ ∃ z, zreach m A x z ∧
    (t = z ∨ (m.valid_index z.1 z.2 ∧ m.grid z.1 z.2 = 0 ∧ z ∉ A ∧ t ∈ nbrs z))

theorem sweepTarget_of_step (m : Minefield) {p x t : ℤ × ℤ}
    (hstep : zstep m ∅ p x) (ht : sweepTarget m ∅ x t) : sweepTarget m ∅ p t := by
  obtain ⟨hvt, z, hz, hcase⟩ := ht
  exact ⟨hvt, z, Relation.ReflTransGen.head hstep hz, hcase⟩

theorem sweepAux_sound (m : Minefield) (q : List (ℤ × ℤ)) (u : Finset (ℤ × ℤ)) :
    ∀ t ∈ m.sweepAux q u, t ∈ u ∨ ∃ x ∈ q, sweepTarget m ∅ x t := by
  induction q, u using Minefield.sweepAux.induct m with
  | case1 u =>
    intro t ht
    rw [sweepAux_nil] at ht
    exact Or.inl ht
  | case2 u p q' hcond ih =>
    intro t ht
    rw [sweepAux_skip m p q' u hcond] at ht
    rcases ih t ht with h | ⟨x, hx, hxt⟩
    · exact Or.inl h
    · exact Or.inr ⟨x, List.mem_cons_of_mem _ hx, hxt⟩
  | case3 u p q' hcond hnz ih =>
    intro t ht
    rw [sweepAux_stop m p q' u hcond hnz] at ht
    push_neg at hcond
    rcases ih t ht with h | ⟨x, hx, hxt⟩
    · rcases Finset.mem_insert.mp h with rfl | hu
      · exact Or.inr ⟨t, List.mem_cons_self t q',
          ⟨hcond.1, t, Relation.ReflTransGen.refl, Or.inl rfl⟩⟩
      · exact Or.inl hu
    · exact Or.inr ⟨x, List.mem_cons_of_mem _ hx, hxt⟩
  | case4 u p q' hcond hz ih =>
    intro t ht
    have hz0 : m.grid p.1 p.2 = 0 := not_not.mp hz
    rw [sweepAux_go m p q' u hcond hz0] at ht
    push_neg at hcond
    rcases ih t ht with h | ⟨x, hx, hxt⟩
    · rcases Finset.mem_insert.mp h with rfl | hu
      · exact Or.inr ⟨t, List.mem_cons_self t q',
          ⟨hcond.1, t, Relation.ReflTransGen.refl, Or.inl rfl⟩⟩
      · exact Or.inl hu
    · rcases List.mem_append.mp hx with hq' | hnb
      · exact Or.inr ⟨x, List.mem_cons_of_mem _ hq', hxt⟩
      · refine Or.inr ⟨p, List.mem_cons_self p q', ?_⟩
        exact sweepTarget_of_step m
          ⟨hcond.1, hz0, Finset.not_mem_empty p, hnb⟩ hxt

theorem zreach_insert_of_nonzero (m : Minefield) (u : Finset (ℤ × ℤ))
    (p : ℤ × ℤ) (hnz : m.grid p.1 p.2 ≠ 0) {x z : ℤ × ℤ}
    (hr : zreach m u x z) : zreach m (insert p u) x z := by
  induction hr using Relation.ReflTransGen.head_induction_on with
  | refl => exact Relation.ReflTransGen.refl
  | head hstep _ ih =>
    obtain ⟨hv, h0, hnu, hnb⟩ := hstep
    refine Relation.ReflTransGen.head ⟨hv, h0, ?_, hnb⟩ ih
    rw [Finset.mem_insert]
    rintro (rfl | hu)
    · exact hnz h0
    · exact hnu hu

theorem zreach_insert_split (m : Minefield) (u : Finset (ℤ × ℤ))
    (p : ℤ × ℤ) {x z : ℤ × ℤ} (hr : zreach m u x z) :
    ∃ x', (x' = x ∨ x' ∈ nbrs p) ∧ zreach m (insert p u) x' z := by
  induction hr using Relation.ReflTransGen.head_induction_on with
  | refl => exact ⟨z, Or.inl rfl, Relation.ReflTransGen.refl⟩
  | @head a b hstep _ ih =>
    obtain ⟨hv, h0, hnu, hnb⟩ := hstep
    obtain ⟨x'', hx'', hr''⟩ := ih
    by_cases hap : a = p
    · rcases hx'' with rfl | hnb'
      · exact ⟨x'', Or.inr (hap ▸ hnb), hr''⟩
      · exact ⟨x'', Or.inr hnb', hr''⟩
    · rcases hx'' with rfl | hnb'
      · refine ⟨a, Or.inl rfl, Relation.ReflTransGen.head ⟨hv, h0, ?_, hnb⟩ hr''⟩
        rw [Finset.mem_insert]
        rintro (rfl | hu)
        · exact hap rfl
        · exact hnu hu
      · exact ⟨x'', Or.inr hnb', hr''⟩

theorem sweepAux_complete (m : Minefield) (q : List (ℤ × ℤ)) (u : Finset (ℤ × ℤ)) :
    ∀ t x, x ∈ q → sweepTarget m u x t → t ∈ m.sweepAux q u := by
  induction q, u using Minefield.sweepAux.induct m with
  | case1 u =>
    intro t x hx _
    exact absurd hx (List.not_mem_nil x)
  | case2 u p q' hcond ih =>
    intro t x hx ht
    rw [sweepAux_skip m p q' u hcond]
    rcases List.mem_cons.mp hx with rfl | hq'
    · obtain ⟨hvt, z, hz, hcase⟩ := ht
      rcases Relation.ReflTransGen.cases_head hz with rfl | ⟨b, hstep, _⟩
      · rcases hcase with rfl | ⟨hvz, _, hnu, _⟩
        · rcases hcond with hnv | hu
          · exact absurd hvt hnv
          · exact sweepAux_mono m q' u hu
        · rcases hcond with hnv | hu
          · exact absurd hvz hnv
          · exact absurd hu hnu
      · obtain ⟨hv, _, hnu, _⟩ := hstep
        rcases hcond with hnv | hu
        · exact absurd hv hnv
        · exact absurd hu hnu
    · exact ih t x hq' ht
  | case3 u p q' hcond hnz ih =>
    intro t x hx ht
    rw [sweepAux_stop m p q' u hcond hnz]
    rcases List.mem_cons.mp hx with rfl | hq'
    · obtain ⟨hvt, z, hz, hcase⟩ := ht
      rcases Relation.ReflTransGen.cases_head hz with rfl | ⟨b, hstep, _⟩
      · rcases hcase with rfl | ⟨_, hz0, _, _⟩
        · exact sweepAux_mono m q' (insert t u) (Finset.mem_insert_self t u)
        · exact absurd hz0 hnz
      · exact absurd hstep.2.1 hnz
    · obtain ⟨hvt, z, hz, hcase⟩ := ht
      refine ih t x hq' ⟨hvt, z, zreach_insert_of_nonzero m u p hnz hz, ?_⟩
      rcases hcase with rfl | ⟨hvz, hz0, hznu, hadj⟩
      · exact Or.inl rfl
      · refine Or.inr ⟨hvz, hz0, ?_, hadj⟩
        rw [Finset.mem_insert]
        rintro (rfl | hu)
        · exact hnz hz0
        · exact hznu hu
  | case4 u p q' hcond hz ih =>
    intro t x hx ht
    have hz0 : m.grid p.1 p.2 = 0 := not_not.mp hz
    rw [sweepAux_go m p q' u hcond hz0]
    obtain ⟨hvt, z, hz', hcase⟩ := ht
    obtain ⟨x', hx', hr'⟩ := zreach_insert_split m u p hz'
    by_cases hzp : z = p
    · subst hzp
      rcases hcase with rfl | ⟨hvz, hzz0, hznu, hadj⟩
      · exact sweepAux_mono m _ _ (Finset.mem_insert_self t u)
      · exact ih t t (List.mem_append_right q' hadj)
          ⟨hvt, t, Relation.ReflTransGen.refl, Or.inl rfl⟩
    · have hxq : ∃ x'' ∈ q' ++ nbrs p, zreach m (insert p u) x'' z := by
        rcases hx' with heq | hnb
        · subst heq
          rcases List.mem_cons.mp hx with heq2 | hq'
          · subst heq2
            rcases Relation.ReflTransGen.cases_head hr' with heq3 | ⟨b, hstep, _⟩
            · exact absurd heq3.symm hzp
            · exact absurd (Finset.mem_insert_self x' u) hstep.2.2.1
          · exact ⟨x', List.mem_append_left _ hq', hr'⟩
        · exact ⟨x', List.mem_append_right _ hnb, hr'⟩
      obtain ⟨x'', hmem, hr''⟩ := hxq
      rcases hcase with rfl | ⟨hvz, hzz0, hznu, hadj⟩
      · exact ih t x'' hmem ⟨hvt, t, hr'', Or.inl rfl⟩
      · refine ih t x'' hmem ⟨hvt, z, hr'', Or.inr ⟨hvz, hzz0, ?_, hadj⟩⟩
        rw [Finset.mem_insert]
        rintro (rfl | hu)
        · exact hzp rfl
        · exact hznu hu

theorem minesweep_iff (m : Minefield) (r c : ℤ) (hv : m.valid_index r c) :
    ∀ t, t ∈ m.minesweep r c ↔ sweepTarget m ∅ (r, c) t := by
  intro t
  unfold Minefield.minesweep
  rw [if_pos hv]
  constructor
  · intro ht
    rcases sweepAux_sound m [(r, c)] ∅ t ht with h | ⟨x, hx, hxt⟩
    · exact absurd h (Finset.not_mem_empty t)
    · have hx' : x = (r, c) := List.mem_singleton.mp hx
      exact hx' ▸ hxt
  · intro ht
    exact sweepAux_complete m [(r, c)] ∅ t (r, c) (List.mem_singleton.mpr rfl) ht

theorem minesweep_valid (m : Minefield) (r c : ℤ) :
    ∀ t ∈ m.minesweep r c, m.valid_index t.1 t.2 := by
  intro t ht
  unfold Minefield.minesweep at ht
  by_cases hv : m.valid_index r c
  · rw [if_pos hv] at ht
    rcases sweepAux_sound m _ _ t ht with h | ⟨x, _, hxt⟩
    · exact absurd h (Finset.not_mem_empty t)
    · exact hxt.1
  · rw [if_neg hv] at ht
    exact absurd ht (Finset.not_mem_empty t)

theorem start_mem_minesweep (m : Minefield) (r c : ℤ)
    (hv : m.valid_index r c) : (r, c) ∈ m.minesweep r c :=
  (minesweep_iff m r c hv (r, c)).mpr
    ⟨hv, (r, c), Relation.ReflTransGen.refl, Or.inl rfl⟩

theorem minesweep_nonzero (m : Minefield) (r c : ℤ) (hv : m.valid_index r c)
    (hnz : m.grid r c ≠ 0) : m.minesweep r c = {(r, c)} := by
  ext t
  rw [Finset.mem_singleton, minesweep_iff m r c hv t]
  constructor
  · rintro ⟨hvt, z, hz, hcase⟩
    rcases Relation.ReflTransGen.cases_head hz with heq | ⟨b, hstep, _⟩
    · rcases hcase with rfl | ⟨_, hz0, _, _⟩
      · exact heq.symm
      · rw [← heq] at hz0
        exact absurd hz0 hnz
    · exact absurd hstep.2.1 hnz
  · rintro rfl
    exact ⟨hv, (r, c), Relation.ReflTransGen.refl, Or.inl rfl⟩

theorem minesweep_boundary (m : Minefield) (r c : ℤ) :
    ∀ t ∈ m.minesweep r c, t ≠ (r, c) →
    ∃ z, m.valid_index z.1 z.2 ∧ m.grid z.1 z.2 = 0 ∧ t ∈ nbrs z := by
  intro t ht hne
  have hv : m.valid_index r c := by
    by_cases hv : m.valid_index r c
    · exact hv
    · unfold Minefield.minesweep at ht
      rw [if_neg hv] at ht
      exact absurd ht (Finset.not_mem_empty t)
  rw [minesweep_iff m r c hv t] at ht
  obtain ⟨hvt, z, hz, hcase⟩ := ht
  rcases hcase with rfl | ⟨hvz, hz0, _, hadj⟩
  · rcases Relation.ReflTransGen.cases_tail hz with heq | ⟨y, hy, hstep⟩
    · exact absurd heq hne
    · obtain ⟨hvy, hy0, _, hnb⟩ := hstep
      exact ⟨y, hvy, hy0, hnb⟩
  · exact ⟨z, hvz, hz0, hadj⟩

/-- A grid in which no zero-valued cell has a MINE neighbour. Every grid
produced by generate satisfies this (a zero cell counts zero surrounding
mines), and it is the property that keeps the flood fill from spreading into
a mine. -/
def zeroNoMine (m : Minefield) : Prop :=
  ∀ r ∈ Finset.range m.rows, ∀ c ∈ Finset.range m.columns,
    m.grid (r : ℤ) (c : ℤ) = 0 →
    ∀ d ∈ Ordinal, m.valid_index ((r : ℤ) + d.1) ((c : ℤ) + d.2) →
      m.grid ((r : ℤ) + d.1) ((c : ℤ) + d.2) ≠ MINE

instance (m : Minefield) : Decidable (zeroNoMine m) := by
  unfold zeroNoMine; infer_instance

theorem zeroNoMine_apply {m : Minefield} (hinv : zeroNoMine m) {z t : ℤ × ℤ}
    (hvz : m.valid_index z.1 z.2) (hz0 : m.grid z.1 z.2 = 0)
    (hvt : m.valid_index t.1 t.2) (hnb : t ∈ nbrs z) :
    m.grid t.1 t.2 ≠ MINE := by
  obtain ⟨h1, h2, h3, h4⟩ := hvz
  obtain ⟨d, hd, hdt⟩ := List.mem_map.mp hnb
  have e1 : ((z.1.toNat : ℕ) : ℤ) = z.1 := by omega
  have e2 : ((z.2.toNat : ℕ) : ℤ) = z.2 := by omega
  have key := hinv z.1.toNat (Finset.mem_range.mpr (by omega))
    z.2.toNat (Finset.mem_range.mpr (by omega))
  rw [e1, e2] at key
  subst hdt
  exact key hz0 d hd hvt

theorem minesweep_no_mine (m : Minefield) (hinv : zeroNoMine m) (r c : ℤ) :
    ∀ t ∈ m.minesweep r c, t ≠ (r, c) → m.grid t.1 t.2 ≠ MINE := by
  intro t ht hne
  obtain ⟨z, hvz, hz0, hnb⟩ := minesweep_boundary m r c t ht hne
  exact zeroNoMine_apply hinv hvz hz0 (minesweep_valid m r c t ht) hnb

/-- C3: on a generated grid (one where zero cells have no mine neighbours),
the flood fill started at a valid zero-valued cell marks exactly the cells of
the start's connected zero-region together with the ring of nonzero cells
adjacent to that region; it never marks past a nonzero cell, and every marked
cell other than the start itself is not a MINE. -/
theorem flood_fill_region (m : Minefield) (r c : ℤ)
    (hv : m.valid_index r c) (hz : m.grid r c = 0) (hinv : zeroNoMine m) :
    (∀ t, t ∈ m.minesweep r c ↔
      ((m.valid_index t.1 t.2 ∧ m.grid t.1 t.2 = 0 ∧ zreach m ∅ (r, c) t) ∨
       (m.valid_index t.1 t.2 ∧ m.grid t.1 t.2 ≠ 0 ∧
         ∃ z, m.valid_index z.1 z.2 ∧ m.grid z.1 z.2 = 0 ∧
           zreach m ∅ (r, c) z ∧ t ∈ nbrs z))) ∧
    (∀ t ∈ m.minesweep r c, t ≠ (r, c) → m.grid t.1 t.2 ≠ MINE) := by
  constructor
  · intro t
    rw [minesweep_iff m r c hv t]
    constructor
    · rintro ⟨hvt, z, hr, hcase⟩
      by_cases hzt : m.grid t.1 t.2 = 0
      · left
        refine ⟨hvt, hzt, ?_⟩
        rcases hcase with rfl | ⟨hvz, hz0, _, hadj⟩
        · exact hr
        · exact Relation.ReflTransGen.tail hr
            ⟨hvz, hz0, Finset.not_mem_empty z, hadj⟩
      · right
        refine ⟨hvt, hzt, ?_⟩
        rcases hcase with rfl | ⟨hvz, hz0, _, hadj⟩
        · rcases Relation.ReflTransGen.cases_tail hr with heq | ⟨y, hy, hstep⟩
          · exact absurd (by rw [heq]; exact hz) hzt
          · obtain ⟨hvy, hy0, _, hnb⟩ := hstep
            exact ⟨y, hvy, hy0, hy, hnb⟩
        · exact ⟨z, hvz, hz0, hr, hadj⟩
    · rintro (⟨hvt, _, hr⟩ | ⟨hvt, _, z, hvz, hz0, hr, hadj⟩)
      · exact ⟨hvt, t, hr, Or.inl rfl⟩
      · exact ⟨hvt, z, hr, Or.inr ⟨hvz, hz0, Finset.not_mem_empty z, hadj⟩⟩
  · exact minesweep_no_mine m hinv r c

/-- A concrete 3x3 board with a single mine at (2,2) and correct neighbour
counts, used to instantiate theorems with hypotheses. -/
def wGrid3 : ℤ → ℤ → ℕ := fun r c =>
  if r = 2 ∧ c = 2 then 9
  else if (r = 1 ∧ c = 1) ∨ (r = 1 ∧ c = 2) ∨ (r = 2 ∧ c = 1) then 1
  else 0

def wM3 : Minefield := ⟨3, 3, wGrid3, false⟩

theorem flood_fill_region_witness :
    (wM3.valid_index 0 0 ∧ wM3.grid 0 0 = 0 ∧ zeroNoMine wM3) ∧
    ((∀ t, t ∈ wM3.minesweep 0 0 ↔
      ((wM3.valid_index t.1 t.2 ∧ wM3.grid t.1 t.2 = 0 ∧ zreach wM3 ∅ (0, 0) t) ∨
       (wM3.valid_index t.1 t.2 ∧ wM3.grid t.1 t.2 ≠ 0 ∧
         ∃ z, wM3.valid_index z.1 z.2 ∧ wM3.grid z.1 z.2 = 0 ∧
           zreach wM3 ∅ (0, 0) z ∧ t ∈ nbrs z))) ∧
     (∀ t ∈ wM3.minesweep 0 0, t ≠ (0, 0) → wM3.grid t.1 t.2 ≠ MINE)) :=
  ⟨⟨by decide, by decide, by decide⟩,
    flood_fill_region wM3 0 0 (by decide) (by decide) (by decide)⟩

/-! Lemmas about Checkerboard.uncover. -/

theorem uncover_revealed (b : Checkerboard) (r c : ℤ) :
    (b.uncover r c).1.revealed = insert (r, c) b.revealed := by
  unfold Checkerboard.uncover
  split_ifs <;> rfl

theorem uncover_grid (b : Checkerboard) (r c : ℤ) :
    (b.uncover r c).1.grid = b.grid := by
  unfold Checkerboard.uncover
  split_ifs <;> rfl

theorem uncover_rows (b : Checkerboard) (r c : ℤ) :
    (b.uncover r c).1.rows = b.rows := by
  unfold Checkerboard.uncover
  split_ifs <;> rfl

theorem uncover_columns (b : Checkerboard) (r c : ℤ) :
    (b.uncover r c).1.columns = b.columns := by
  unfold Checkerboard.uncover
  split_ifs <;> rfl

theorem uncover_mines (b : Checkerboard) (r c : ℤ) :
    (b.uncover r c).1.mines = b.mines := by
  unfold Checkerboard.uncover
  split_ifs <;> rfl

theorem uncover_flags_subset (b : Checkerboard) (r c : ℤ) :
    (b.uncover r c).1.flags ⊆ b.flags := by
  unfold Checkerboard.uncover
  split_ifs
  · exact fun x hx => hx
  · exact fun x hx => Finset.mem_of_mem_erase hx
  · exact fun x hx => hx

theorem uncover_flags_other (b : Checkerboard) (r c : ℤ) (t : ℤ × ℤ)
    (ht : t ∈ b.flags) (hne : t ≠ (r, c)) : t ∈ (b.uncover r c).1.flags := by
  unfold Checkerboard.uncover
  split_ifs
  · exact ht
  · exact Finset.mem_erase.mpr ⟨hne, ht⟩
  · exact ht

theorem uncover_flag_pop (b : Checkerboard) (r c : ℤ)
    (hm : b.grid.grid r c ≠ MINE) (hf : (r, c) ∈ b.flags) :
    (r, c) ∉ (b.uncover r c).1.flags ∧ Ev.flagRemove ∈ (b.uncover r c).2 := by
  unfold Checkerboard.uncover
  rw [if_neg hm, if_pos hf]
  refine ⟨fun hx => ?_, ?_⟩
  · exact (Finset.mem_erase.mp hx).1 rfl
  · exact List.mem_append_right _ (List.mem_singleton.mpr rfl)

/-- C4: the SOLVED signal (on_success) is dispatched by an uncover exactly
when the uncovered cell is not a mine and, with the cell marked revealed, the
number of unrevealed cells (area minus the revealed count) equals the
configured mine count; the check runs at every uncover, so the signal fires
at the first uncover making the condition true and never while it is
false. -/
theorem solved_signal_iff (b : Checkerboard) (r c : ℤ) :
    Ev.success ∈ (b.uncover r c).2 ↔
      (b.grid.grid r c ≠ MINE ∧
        (b.grid.area : ℤ) - ((insert (r, c) b.revealed).card : ℤ) = b.mines) := by
  unfold Checkerboard.uncover
  by_cases hm : b.grid.grid r c = MINE
  · rw [if_pos hm]
    simp [hm]
  · rw [if_neg hm]
    by_cases hcond : (b.grid.area : ℤ) - ((insert (r, c) b.revealed).card : ℤ) = b.mines
    · rw [if_pos hcond]
      by_cases hf : (r, c) ∈ b.flags
      · rw [if_pos hf]
        simp [hm, hcond]
      · rw [if_neg hf]
        simp [hm, hcond]
    · rw [if_neg hcond]
      by_cases hf : (r, c) ∈ b.flags
      · rw [if_pos hf]
        simp [hm, hcond]
      · rw [if_neg hf]
        simp [hm, hcond]

/-! Lemmas about Checkerboard.uncover_all. -/

theorem ucStep_grid (d : Finset (ℤ × ℤ)) (acc : Checkerboard × List Ev × ℕ)
    (rc : ℕ × ℕ) : (ucStep d acc rc).1.grid = acc.1.grid := by
  unfold ucStep
  split_ifs
  · exact uncover_grid _ _ _
  · rfl

theorem ucStep_rows (d : Finset (ℤ × ℤ)) (acc : Checkerboard × List Ev × ℕ)
    (rc : ℕ × ℕ) : (ucStep d acc rc).1.rows = acc.1.rows := by
  unfold ucStep
  split_ifs
  · exact uncover_rows _ _ _
  · rfl

theorem ucStep_columns (d : Finset (ℤ × ℤ)) (acc : Checkerboard × List Ev × ℕ)
    (rc : ℕ × ℕ) : (ucStep d acc rc).1.columns = acc.1.columns := by
  unfold ucStep
  split_ifs
  · exact uncover_columns _ _ _
  · rfl

theorem ucStep_mines (d : Finset (ℤ × ℤ)) (acc : Checkerboard × List Ev × ℕ)
    (rc : ℕ × ℕ) : (ucStep d acc rc).1.mines = acc.1.mines := by
  unfold ucStep
  split_ifs
  · exact uncover_mines _ _ _
  · rfl

theorem ucFold_grid (d : Finset (ℤ × ℤ)) (L : List (ℕ × ℕ)) :
    ∀ acc, ((L.foldl (ucStep d) acc).1).grid = acc.1.grid := by
  induction L with
  | nil => intro acc; rfl
  | cons h t ih =>
    intro acc
    rw [List.foldl_cons, ih (ucStep d acc h), ucStep_grid]

theorem ucFold_flags_subset (d : Finset (ℤ × ℤ)) (L : List (ℕ × ℕ)) :
    ∀ acc, ((L.foldl (ucStep d) acc).1).flags ⊆ acc.1.flags := by
  induction L with
  | nil => intro acc x hx; exact hx
  | cons h t ih =>
    intro acc x hx
    have h1 := ih (ucStep d acc h) hx
    revert h1
    unfold ucStep
    split_ifs
    · exact fun h1 => uncover_flags_subset _ _ _ h1
    · exact fun h1 => h1

theorem ucStep_revealed_iff (d : Finset (ℤ × ℤ)) (acc : Checkerboard × List Ev × ℕ)
    (rc : ℕ × ℕ) (x : ℤ × ℤ) :
    x ∈ (ucStep d acc rc).1.revealed ↔
      x ∈ acc.1.revealed ∨ (x ∈ d ∧ x = ((rc.1 : ℤ), (rc.2 : ℤ))) := by
  unfold ucStep
  split_ifs with h
  · rw [uncover_revealed, Finset.mem_insert]
    constructor
    · rintro (rfl | hx)
      · exact Or.inr ⟨h.1, rfl⟩
      · exact Or.inl hx
    · rintro (hx | ⟨_, rfl⟩)
      · exact Or.inr hx
      · exact Or.inl rfl
  · constructor
    · exact Or.inl
    · rintro (hx | ⟨hd, rfl⟩)
      · exact hx
      · by_contra
        exact h ⟨hd, by assumption⟩

theorem ucFold_revealed_iff (d : Finset (ℤ × ℤ)) (L : List (ℕ × ℕ)) :
    ∀ acc (x : ℤ × ℤ), x ∈ ((L.foldl (ucStep d) acc).1).revealed ↔
      x ∈ acc.1.revealed ∨ (x ∈ d ∧ ∃ rc ∈ L, x = ((rc.1 : ℤ), (rc.2 : ℤ))) := by
  induction L with
  | nil => intro acc x; simp
  | cons h t ih =>
    intro acc x
    rw [List.foldl_cons, ih (ucStep d acc h) x, ucStep_revealed_iff]
    simp only [List.mem_cons]
    constructor
    · rintro ((hx | ⟨hd, heq⟩) | ⟨hd, rc, hrc, heq⟩)
      · exact Or.inl hx
      · exact Or.inr ⟨hd, h, Or.inl rfl, heq⟩
      · exact Or.inr ⟨hd, rc, Or.inr hrc, heq⟩
    · rintro (hx | ⟨hd, rc, hrc | hrc, heq⟩)
      · exact Or.inl (Or.inl hx)
      · exact Or.inl (Or.inr ⟨hd, hrc ▸ heq⟩)
      · exact Or.inr ⟨hd, rc, hrc, heq⟩

theorem ucFold_events (d : Finset (ℤ × ℤ)) (L : List (ℕ × ℕ)) :
    ∀ acc, ∃ e, (L.foldl (ucStep d) acc).2.1 = acc.2.1 ++ e := by
  induction L with
  | nil => intro acc; exact ⟨[], (List.append_nil _).symm⟩
  | cons h t ih =>
    intro acc
    rw [List.foldl_cons]
    obtain ⟨e2, he2⟩ := ih (ucStep d acc h)
    rw [he2]
    unfold ucStep
    split_ifs
    · refine ⟨(acc.1.uncover (h.1 : ℤ) (h.2 : ℤ)).2 ++ e2, ?_⟩
      show (acc.2.1 ++ (acc.1.uncover (h.1 : ℤ) (h.2 : ℤ)).2) ++ e2 =
        acc.2.1 ++ ((acc.1.uncover (h.1 : ℤ) (h.2 : ℤ)).2 ++ e2)
      rw [List.append_assoc]
    · exact ⟨e2, rfl⟩

theorem ucFold_flag_removed (d : Finset (ℤ × ℤ)) (L : List (ℕ × ℕ)) :
    ∀ acc (t : ℤ × ℤ), t ∈ acc.1.flags → t ∈ d → t ∉ acc.1.revealed →
    acc.1.grid.grid t.1 t.2 ≠ MINE →
    (∃ rc ∈ L, t = ((rc.1 : ℤ), (rc.2 : ℤ))) →
    t ∉ ((L.foldl (ucStep d) acc).1).flags ∧
      Ev.flagRemove ∈ (L.foldl (ucStep d) acc).2.1 := by
  induction L with
  | nil =>
    rintro acc t _ _ _ _ ⟨rc, hrc, _⟩
    exact absurd hrc (List.not_mem_nil rc)
  | cons h tl ih =>
    rintro acc t hf hd hnr hnm ⟨rc, hrc, hrceq⟩
    by_cases hth : t = ((h.1 : ℤ), (h.2 : ℤ))
    · subst hth
      have hcond : ((h.1 : ℤ), (h.2 : ℤ)) ∈ d ∧
          ((h.1 : ℤ), (h.2 : ℤ)) ∉ acc.1.revealed := ⟨hd, hnr⟩
      have hstep : ucStep d acc h =
          ((acc.1.uncover (h.1 : ℤ) (h.2 : ℤ)).1,
           acc.2.1 ++ (acc.1.uncover (h.1 : ℤ) (h.2 : ℤ)).2, acc.2.2 + 1) := by
        unfold ucStep
        rw [if_pos hcond]
      obtain ⟨hout, hev⟩ := uncover_flag_pop acc.1 (h.1 : ℤ) (h.2 : ℤ) hnm hf
      rw [List.foldl_cons, hstep]
      constructor
      · intro hx
        exact hout (ucFold_flags_subset d tl _ hx)
      · obtain ⟨e, he⟩ := ucFold_events d tl
          ((acc.1.uncover (h.1 : ℤ) (h.2 : ℤ)).1,
           acc.2.1 ++ (acc.1.uncover (h.1 : ℤ) (h.2 : ℤ)).2, acc.2.2 + 1)
        rw [he]
        exact List.mem_append_left _ (List.mem_append_right _ hev)
    · rcases List.mem_cons.mp hrc with heq | htl
      · rw [heq] at hrceq
        exact absurd hrceq hth
      · rw [List.foldl_cons]
        apply ih (ucStep d acc h) t ?_ hd ?_ ?_ ⟨rc, htl, hrceq⟩
        · unfold ucStep
          split_ifs
          · exact uncover_flags_other acc.1 _ _ t hf hth
          · exact hf
        · rw [ucStep_revealed_iff]
          rintro (hx | ⟨_, heq⟩)
          · exact hnr hx
          · exact hth heq
        · rw [ucStep_grid]
          exact hnm

/-! Lemmas about Checkerboard.minesweep_from_cell. -/

theorem generate_mfEmpty (m : Minefield) (ps : List ℕ) :
    (m.generate ps).mfEmpty = false := rfl

theorem generate_valid_index (m : Minefield) (ps : List ℕ) (r c : ℤ) :
    (m.generate ps).valid_index r c ↔ m.valid_index r c := Iff.rfl

theorem genIfEmpty_flags (b : Checkerboard) (ps : List ℕ) :
    (b.genIfEmpty ps).flags = b.flags := by
  unfold Checkerboard.genIfEmpty
  split_ifs <;> rfl

theorem genIfEmpty_revealed (b : Checkerboard) (ps : List ℕ) :
    (b.genIfEmpty ps).revealed = b.revealed := by
  unfold Checkerboard.genIfEmpty
  split_ifs <;> rfl

theorem genIfEmpty_rows (b : Checkerboard) (ps : List ℕ) :
    (b.genIfEmpty ps).rows = b.rows := by
  unfold Checkerboard.genIfEmpty
  split_ifs <;> rfl

theorem genIfEmpty_columns (b : Checkerboard) (ps : List ℕ) :
    (b.genIfEmpty ps).columns = b.columns := by
  unfold Checkerboard.genIfEmpty
  split_ifs <;> rfl

theorem genIfEmpty_mines (b : Checkerboard) (ps : List ℕ) :
    (b.genIfEmpty ps).mines = b.mines := by
  unfold Checkerboard.genIfEmpty
  split_ifs <;> rfl

theorem genIfEmpty_valid_index (b : Checkerboard) (ps : List ℕ) (r c : ℤ) :
    (b.genIfEmpty ps).grid.valid_index r c ↔ b.grid.valid_index r c := by
  unfold Checkerboard.genIfEmpty
  split_ifs <;> exact Iff.rfl

theorem genIfEmpty_of_false (b : Checkerboard) (ps : List ℕ)
    (hne : b.grid.mfEmpty = false) : b.genIfEmpty ps = b := by
  unfold Checkerboard.genIfEmpty
  rw [hne, if_neg Bool.false_ne_true]

theorem genIfEmpty_of_true (b : Checkerboard) (ps : List ℕ)
    (hemp : b.grid.mfEmpty = true) :
    b.genIfEmpty ps = { b with grid := b.grid.generate ps } := by
  unfold Checkerboard.genIfEmpty
  rw [hemp, if_pos rfl]

theorem genIfEmpty_mfEmpty (b : Checkerboard) (ps : List ℕ) :
    (b.genIfEmpty ps).grid.mfEmpty = false := by
  unfold Checkerboard.genIfEmpty
  split_ifs with h
  · rfl
  · exact Bool.eq_false_iff.mpr h

theorem msfc_noop (b : Checkerboard) (ps : List ℕ) (r c : ℤ)
    (h : (r, c) ∈ b.flags ∨ ¬ b.grid.valid_index r c ∨ (r, c) ∈ b.revealed) :
    (b.minesweep_from_cell ps r c).1.revealed = b.revealed ∧
    (b.minesweep_from_cell ps r c).1.flags = b.flags ∧
    (b.minesweep_from_cell ps r c).2 = [] := by
  have hg : ¬ ((r, c) ∉ (b.genIfEmpty ps).flags ∧
      (b.genIfEmpty ps).grid.valid_index r c ∧
      (r, c) ∉ (b.genIfEmpty ps).revealed) := by
    rw [genIfEmpty_flags, genIfEmpty_revealed, genIfEmpty_valid_index]
    rintro ⟨h1, h2, h3⟩
    rcases h with hh | hh | hh
    · exact h1 hh
    · exact hh h2
    · exact h3 hh
  unfold Checkerboard.minesweep_from_cell
  rw [if_neg hg]
  exact ⟨genIfEmpty_revealed b ps, genIfEmpty_flags b ps, rfl⟩

theorem msfc_proceed (b : Checkerboard) (ps : List ℕ) (r c : ℤ)
    (hne : b.grid.mfEmpty = false)
    (h1 : (r, c) ∉ b.flags) (h2 : b.grid.valid_index r c)
    (h3 : (r, c) ∉ b.revealed) :
    b.minesweep_from_cell ps r c =
      ((b.uncover_all (b.grid.minesweep r c)).1,
       (b.uncover_all (b.grid.minesweep r c)).2.1) := by
  unfold Checkerboard.minesweep_from_cell
  rw [genIfEmpty_of_false b ps hne, if_pos ⟨h1, h2, h3⟩]

theorem mem_cellList_of_valid (rows columns : ℕ) (x : ℤ × ℤ)
    (hv : validIdx rows columns x.1 x.2) :
    ∃ rc ∈ cellList rows columns, x = ((rc.1 : ℤ), (rc.2 : ℤ)) := by
  obtain ⟨h1, h2, h3, h4⟩ := hv
  refine ⟨(x.1.toNat, x.2.toNat), mem_cellList.mpr ⟨by omega, by omega⟩, ?_⟩
  obtain ⟨a, b⟩ := x
  simp only [Prod.ext_iff]
  constructor <;> simp <;> omega

theorem msfc_else (b : Checkerboard) (ps : List ℕ) (r c : ℤ)
    (h : (r, c) ∈ b.flags ∨ ¬ b.grid.valid_index r c ∨ (r, c) ∈ b.revealed) :
    b.minesweep_from_cell ps r c = (b.genIfEmpty ps, []) := by
  have hg : ¬ ((r, c) ∉ (b.genIfEmpty ps).flags ∧
      (b.genIfEmpty ps).grid.valid_index r c ∧
      (r, c) ∉ (b.genIfEmpty ps).revealed) := by
    rw [genIfEmpty_flags, genIfEmpty_revealed, genIfEmpty_valid_index]
    rintro ⟨h1, h2, h3⟩
    rcases h with hh | hh | hh
    · exact h1 hh
    · exact hh h2
    · exact h3 hh
  unfold Checkerboard.minesweep_from_cell
  rw [if_neg hg]

theorem msfc_genIfEmpty (b : Checkerboard) (ps : List ℕ) (r c : ℤ) :
    b.minesweep_from_cell ps r c = (b.genIfEmpty ps).minesweep_from_cell ps r c := by
  unfold Checkerboard.minesweep_from_cell
  rw [genIfEmpty_of_false (b.genIfEmpty ps) ps (genIfEmpty_mfEmpty b ps)]

theorem genIfEmpty_dim (b : Checkerboard) (ps : List ℕ)
    (hdim : b.grid.rows = b.rows ∧ b.grid.columns = b.columns) :
    (b.genIfEmpty ps).grid.rows = (b.genIfEmpty ps).rows ∧
    (b.genIfEmpty ps).grid.columns = (b.genIfEmpty ps).columns := by
  unfold Checkerboard.genIfEmpty
  split_ifs
  · exact hdim
  · exact hdim

theorem msfc_start_revealed (b : Checkerboard) (ps : List ℕ) (r c : ℤ)
    (hne : b.grid.mfEmpty = false)
    (hdim : b.grid.rows = b.rows ∧ b.grid.columns = b.columns)
    (h1 : (r, c) ∉ b.flags) (h2 : b.grid.valid_index r c)
    (h3 : (r, c) ∉ b.revealed) :
    (r, c) ∈ (b.minesweep_from_cell ps r c).1.revealed := by
  rw [msfc_proceed b ps r c hne h1 h2 h3]
  show (r, c) ∈ (b.uncover_all (b.grid.minesweep r c)).1.revealed
  unfold Checkerboard.uncover_all
  rw [ucFold_revealed_iff]
  refine Or.inr ⟨start_mem_minesweep b.grid r c h2, ?_⟩
  apply mem_cellList_of_valid b.rows b.columns (r, c)
  rw [← hdim.1, ← hdim.2]
  exact h2

/-- A 2x2 board in the exploded state: the mine at (0,0) is already
revealed. -/
def cexGrid : ℤ → ℤ → ℕ := fun r c => if r = 0 ∧ c = 0 then 9 else 1

def cexBoard : Checkerboard :=
  ⟨2, 2, 1, ⟨2, 2, cexGrid, false⟩, {(0, 0)}, ∅⟩

/-- C8 counterexample: minesweep_from_cell performs no terminal-state check.
On a board in the exploded state (the mine at (0,0) is already revealed),
calling it on the fresh cell (1,1) still reveals that cell, so the diff is
not empty, contradicting the terminal-state clause of the claim. In the
application, terminal states are enforced by the Game object removing the
Checkerboard's event handlers, not by minesweep_from_cell itself. -/
theorem terminal_noop_counterexample :
    cexBoard.grid.grid 0 0 = MINE ∧ (0, 0) ∈ cexBoard.revealed ∧
    (cexBoard.minesweep_from_cell [] 1 1).1.revealed ≠ cexBoard.revealed := by
  refine ⟨rfl, by decide, ?_⟩
  rw [msfc_proceed cexBoard [] 1 1 rfl (by decide) (by decide) (by decide)]
  rw [minesweep_nonzero cexBoard.grid 1 1 (by decide) (by decide)]
  decide

/-- C8 amended: a reveal request is a no-op (the revealed mask and the flags
are unchanged and no events are dispatched) whenever the coordinate is
flagged, invalid, or already revealed, and calling it twice on the same
coordinate reveals nothing the second time. The terminal-state clause of the
claim does not hold of minesweep_from_cell itself (see the counterexample):
the caller enforces it by removing the board's event handlers. -/
theorem reveal_noop_and_idempotent (b : Checkerboard) (ps ps' : List ℕ) (r c : ℤ)
    (hdim : b.grid.rows = b.rows ∧ b.grid.columns = b.columns) :
    (((r, c) ∈ b.flags ∨ ¬ b.grid.valid_index r c ∨ (r, c) ∈ b.revealed) →
      ((b.minesweep_from_cell ps r c).1.revealed = b.revealed ∧
       (b.minesweep_from_cell ps r c).1.flags = b.flags ∧
       (b.minesweep_from_cell ps r c).2 = [])) ∧
    (((b.minesweep_from_cell ps r c).1.minesweep_from_cell ps' r c).1.revealed =
       (b.minesweep_from_cell ps r c).1.revealed ∧
     ((b.minesweep_from_cell ps r c).1.minesweep_from_cell ps' r c).2 = []) := by
  constructor
  · exact fun h => msfc_noop b ps r c h
  · by_cases hg : (r, c) ∈ b.flags ∨ ¬ b.grid.valid_index r c ∨ (r, c) ∈ b.revealed
    · rw [msfc_else b ps r c hg]
      have h' : (r, c) ∈ (b.genIfEmpty ps).flags ∨
          ¬ (b.genIfEmpty ps).grid.valid_index r c ∨
          (r, c) ∈ (b.genIfEmpty ps).revealed := by
        rw [genIfEmpty_flags, genIfEmpty_revealed, genIfEmpty_valid_index]
        exact hg
      obtain ⟨e1, _, e3⟩ := msfc_noop (b.genIfEmpty ps) ps' r c h'
      exact ⟨e1, e3⟩
    · push_neg at hg
      obtain ⟨h1, h2, h3⟩ := hg
      rw [msfc_genIfEmpty b ps r c]
      have hne1 : (b.genIfEmpty ps).grid.mfEmpty = false := genIfEmpty_mfEmpty b ps
      have h1' : (r, c) ∉ (b.genIfEmpty ps).flags := by
        rw [genIfEmpty_flags]; exact h1
      have h2' : (b.genIfEmpty ps).grid.valid_index r c :=
        (genIfEmpty_valid_index b ps r c).mpr h2
      have h3' : (r, c) ∉ (b.genIfEmpty ps).revealed := by
        rw [genIfEmpty_revealed]; exact h3
      have hdim1 := genIfEmpty_dim b ps hdim
      have hstart := msfc_start_revealed (b.genIfEmpty ps) ps r c hne1 hdim1 h1' h2' h3'
      obtain ⟨e1, _, e3⟩ :=
        msfc_noop ((b.genIfEmpty ps).minesweep_from_cell ps r c).1 ps' r c
          (Or.inr (Or.inr hstart))
      exact ⟨e1, e3⟩

theorem reveal_noop_and_idempotent_witness :
    (cexBoard.grid.rows = cexBoard.rows ∧
      cexBoard.grid.columns = cexBoard.columns) ∧
    ((((0 : ℤ), (1 : ℤ)) ∈ cexBoard.flags ∨
        ¬ cexBoard.grid.valid_index 0 1 ∨ ((0 : ℤ), (1 : ℤ)) ∈ cexBoard.revealed) →
      ((cexBoard.minesweep_from_cell [] 0 1).1.revealed = cexBoard.revealed ∧
       (cexBoard.minesweep_from_cell [] 0 1).1.flags = cexBoard.flags ∧
       (cexBoard.minesweep_from_cell [] 0 1).2 = [])) ∧
    (((cexBoard.minesweep_from_cell [] 0 1).1.minesweep_from_cell [] 0 1).1.revealed =
       (cexBoard.minesweep_from_cell [] 0 1).1.revealed ∧
     ((cexBoard.minesweep_from_cell [] 0 1).1.minesweep_from_cell [] 0 1).2 = []) := by
  have h := reveal_noop_and_idempotent cexBoard [] [] 0 1 ⟨rfl, rfl⟩
  exact ⟨⟨rfl, rfl⟩, h.1, h.2⟩

theorem generate_cell_not_mine (rows columns : ℕ) (ps : List ℕ) (a bc : ℕ)
    (ha : a < rows) (hb : bc < columns) (hnp : a * columns + bc ∉ ps) :
    ((Minefield.create rows columns).generate ps).grid (a : ℤ) (bc : ℤ) ≠ MINE := by
  rw [generate_grid_eq rows columns ps a bc ha hb]
  have hnx : ¬ ∃ p ∈ ps, ((p / columns : ℕ) : ℤ) = (a : ℤ) ∧
      ((p % columns : ℕ) : ℤ) = (bc : ℤ) := by
    rintro ⟨p, hp, h1, h2⟩
    have e1 : p / columns = a := by exact_mod_cast h1
    have e2 : p % columns = bc := by exact_mod_cast h2
    have d1 := Nat.div_add_mod p columns
    rw [e1, e2] at d1
    apply hnp
    have heq : a * columns + bc = p := by rw [Nat.mul_comm]; exact d1
    rw [heq]
    exact hp
  rw [if_neg hnx]
  exact countAdj_ne_MINE _ _ _ _ _

/-- C10: a left-click reveal request on a flagged, valid, unrevealed cell of
a still-ungenerated board triggers lazy generation with the cell's linear
index row * columns + column as the safe index (the accepted sample excludes
it): the grid transitions from empty to generated while the revealed mask and
the flag set are unchanged, no events are dispatched, and — thanks to the
safe index — the clicked cell does not hold a mine. -/
theorem lazy_generation_on_flagged (b : Checkerboard) (ps : List ℕ) (r c : ℤ)
    (hemp : b.grid.mfEmpty = true)
    (hval : b.grid.valid_index r c)
    (hflag : (r, c) ∈ b.flags)
    (hfresh : b.grid = Minefield.create b.grid.rows b.grid.columns)
    (hacc : acceptedSample b.grid b.mines
      (some (r.toNat * b.grid.columns + c.toNat)) ps) :
    (b.minesweep_from_cell ps r c).1.grid = b.grid.generate ps ∧
    (b.minesweep_from_cell ps r c).1.grid.mfEmpty = false ∧
    (b.minesweep_from_cell ps r c).1.revealed = b.revealed ∧
    (b.minesweep_from_cell ps r c).1.flags = b.flags ∧
    (b.minesweep_from_cell ps r c).2 = [] ∧
    (b.minesweep_from_cell ps r c).1.grid.grid r c ≠ MINE := by
  have heq : b.minesweep_from_cell ps r c = ({ b with grid := b.grid.generate ps }, []) := by
    rw [msfc_else b ps r c (Or.inl hflag), genIfEmpty_of_true b ps hemp]
  rw [heq]
  refine ⟨rfl, rfl, rfl, rfl, rfl, ?_⟩
  show (b.grid.generate ps).grid r c ≠ MINE
  obtain ⟨h1, h2, h3, h4⟩ := hval
  have e1 : ((r.toNat : ℕ) : ℤ) = r := by omega
  have e2 : ((c.toNat : ℕ) : ℤ) = c := by omega
  have key := generate_cell_not_mine b.grid.rows b.grid.columns ps r.toNat c.toNat
    (by omega) (by omega) (hacc.2 _ rfl)
  rw [e1, e2] at key
  rw [hfresh]
  exact key

def wEmptyBoard : Checkerboard :=
  ⟨2, 2, 1, Minefield.create 2 2, ∅, {(0, 0)}⟩

theorem lazy_generation_on_flagged_witness :
    (wEmptyBoard.grid.mfEmpty = true ∧ wEmptyBoard.grid.valid_index 0 0 ∧
      ((0 : ℤ), (0 : ℤ)) ∈ wEmptyBoard.flags) ∧
    ((wEmptyBoard.minesweep_from_cell [3] 0 0).1.grid = wEmptyBoard.grid.generate [3] ∧
     (wEmptyBoard.minesweep_from_cell [3] 0 0).1.grid.mfEmpty = false ∧
     (wEmptyBoard.minesweep_from_cell [3] 0 0).1.revealed = wEmptyBoard.revealed ∧
     (wEmptyBoard.minesweep_from_cell [3] 0 0).1.flags = wEmptyBoard.flags ∧
     (wEmptyBoard.minesweep_from_cell [3] 0 0).2 = [] ∧
     (wEmptyBoard.minesweep_from_cell [3] 0 0).1.grid.grid 0 0 ≠ MINE) := by
  have hacc : acceptedSample wEmptyBoard.grid wEmptyBoard.mines
      (some ((0 : ℤ).toNat * wEmptyBoard.grid.columns + (0 : ℤ).toNat)) [3] := by
    refine ⟨⟨by decide, by decide, by decide⟩, ?_⟩
    intro s hs
    have hs' : s = 0 := by injection hs with h; exact h.symm
    subst hs'
    decide
  exact ⟨⟨rfl, by decide, by decide⟩,
    lazy_generation_on_flagged wEmptyBoard [3] 0 0 rfl (by decide) (by decide)
      rfl hacc⟩

/-- C9: no cell is simultaneously revealed and flagged. toggle_flag returns
none and changes nothing on an unflagged cell that is invalid or already
revealed, and only ever places a flag on a valid unrevealed cell; a flagged
cell is never revealed by a direct click on it; and when a flood fill reveals
a (necessarily non-mine) flagged cell, the flag is removed and an
on_flag_remove notification is dispatched. -/
theorem flag_reveal_exclusion (b : Checkerboard) (ps : List ℕ) (r c : ℤ)
    (hdim : b.grid.rows = b.rows ∧ b.grid.columns = b.columns)
    (hne : b.grid.mfEmpty = false)
    (hinv : zeroNoMine b.grid) :
    ((r, c) ∉ b.flags → (¬ b.grid.valid_index r c ∨ (r, c) ∈ b.revealed) →
      b.toggle_flag r c = (b, [], none)) ∧
    ((r, c) ∉ b.flags → (r, c) ∈ (b.toggle_flag r c).1.flags →
      b.grid.valid_index r c ∧ (r, c) ∉ b.revealed) ∧
    ((r, c) ∈ b.flags →
      (b.minesweep_from_cell ps r c).1.revealed = b.revealed ∧
      (b.minesweep_from_cell ps r c).2 = []) ∧
    (∀ t ∈ b.flags, t ∈ (b.minesweep_from_cell ps r c).1.revealed →
      t ∉ b.revealed →
      t ∉ (b.minesweep_from_cell ps r c).1.flags ∧
        Ev.flagRemove ∈ (b.minesweep_from_cell ps r c).2) := by
  refine ⟨?_, ?_, ?_, ?_⟩
  · intro hnf hcond
    unfold Checkerboard.toggle_flag
    rw [if_neg hnf, if_neg (by
      rintro ⟨hv, hr⟩
      rcases hcond with hh | hh
      · exact hh hv
      · exact hr hh)]
  · intro hnf hmem
    by_cases hv : b.grid.valid_index r c ∧ (r, c) ∉ b.revealed
    · exact hv
    · unfold Checkerboard.toggle_flag at hmem
      rw [if_neg hnf, if_neg hv] at hmem
      exact absurd hmem hnf
  · intro hf
    obtain ⟨e1, _, e3⟩ := msfc_noop b ps r c (Or.inl hf)
    exact ⟨e1, e3⟩
  · intro t htf htrev htnew
    by_cases hg : (r, c) ∈ b.flags ∨ ¬ b.grid.valid_index r c ∨ (r, c) ∈ b.revealed
    · obtain ⟨e1, _, _⟩ := msfc_noop b ps r c hg
      rw [e1] at htrev
      exact absurd htrev htnew
    · push_neg at hg
      obtain ⟨h1, h2, h3⟩ := hg
      rw [msfc_proceed b ps r c hne h1 h2 h3] at htrev ⊢
      show t ∉ (b.uncover_all (b.grid.minesweep r c)).1.flags ∧
        Ev.flagRemove ∈ (b.uncover_all (b.grid.minesweep r c)).2.1
      have htrev' : t ∈ (b.uncover_all (b.grid.minesweep r c)).1.revealed := htrev
      unfold Checkerboard.uncover_all at htrev' ⊢
      rw [ucFold_revealed_iff] at htrev'
      rcases htrev' with hx | ⟨hd, hex⟩
      · exact absurd hx htnew
      · have htne : t ≠ (r, c) := fun heq => h1 (heq ▸ htf)
        have hnm : b.grid.grid t.1 t.2 ≠ MINE :=
          minesweep_no_mine b.grid hinv r c t hd htne
        exact ucFold_flag_removed (b.grid.minesweep r c)
          (cellList b.rows b.columns) (b, [], 0) t htf hd htnew hnm hex

/-- Every freshly generated grid satisfies zeroNoMine: a zero-valued cell
counts zero surrounding mines, so none of its valid neighbours is a mine. -/
theorem generated_zeroNoMine (rows columns : ℕ) (ps : List ℕ) :
    zeroNoMine ((Minefield.create rows columns).generate ps) := by
  intro r hr c hc hz0 d hd hval hmine
  have hrr := Finset.mem_range.mp hr
  have hcc := Finset.mem_range.mp hc
  have key := generate_grid_eq rows columns ps r c hrr hcc
  by_cases hex : ∃ p ∈ ps, ((p / columns : ℕ) : ℤ) = (r : ℤ) ∧
      ((p % columns : ℕ) : ℤ) = (c : ℤ)
  · rw [key, if_pos hex] at hz0
    exact absurd hz0 (by unfold MINE; omega)
  · rw [key, if_neg hex] at hz0
    have hme := generate_mineEq (Minefield.create rows columns) ps
    have hm1 : ((Minefield.create rows columns).generate_mines ps).grid
        ((r : ℤ) + d.1) ((c : ℤ) + d.2) = MINE := (hme _ _).mp hmine
    have hval' : validIdx rows columns ((r : ℤ) + d.1) ((c : ℤ) + d.2) := hval
    have hpos : 0 < countAdj rows columns
        ((Minefield.create rows columns).generate_mines ps).grid (r : ℤ) (c : ℤ) := by
      apply List.countP_pos_iff.mpr
      exact ⟨d, hd, by simp [hval', hm1]⟩
    omega

def wBoard9 : Checkerboard := ⟨3, 3, 1, wM3, ∅, {(1, 1)}⟩

theorem flag_reveal_exclusion_witness :
    (wBoard9.grid.rows = wBoard9.rows ∧
      wBoard9.grid.columns = wBoard9.columns) ∧
    wBoard9.grid.mfEmpty = false ∧ zeroNoMine wBoard9.grid ∧
    ((((0 : ℤ), (0 : ℤ)) ∉ wBoard9.flags →
        (¬ wBoard9.grid.valid_index 0 0 ∨ ((0 : ℤ), (0 : ℤ)) ∈ wBoard9.revealed) →
        wBoard9.toggle_flag 0 0 = (wBoard9, [], none)) ∧
     (((0 : ℤ), (0 : ℤ)) ∉ wBoard9.flags →
        ((0 : ℤ), (0 : ℤ)) ∈ (wBoard9.toggle_flag 0 0).1.flags →
        wBoard9.grid.valid_index 0 0 ∧ ((0 : ℤ), (0 : ℤ)) ∉ wBoard9.revealed) ∧
     (((0 : ℤ), (0 : ℤ)) ∈ wBoard9.flags →
        (wBoard9.minesweep_from_cell [] 0 0).1.revealed = wBoard9.revealed ∧
        (wBoard9.minesweep_from_cell [] 0 0).2 = []) ∧
     (∀ t ∈ wBoard9.flags, t ∈ (wBoard9.minesweep_from_cell [] 0 0).1.revealed →
        t ∉ wBoard9.revealed →
        t ∉ (wBoard9.minesweep_from_cell [] 0 0).1.flags ∧
          Ev.flagRemove ∈ (wBoard9.minesweep_from_cell [] 0 0).2)) :=
  ⟨⟨rfl, rfl⟩, rfl, by decide,
    flag_reveal_exclusion wBoard9 [] 0 0 ⟨rfl, rfl⟩ rfl (by decide)⟩

theorem chordFold_noop (b : Checkerboard) (ps : List ℕ) (L : List (ℤ × ℤ))
    (hL : ∀ a ∈ L, b.minesweep_from_cell ps a.1 a.2 = (b, [])) :
    L.foldl (chordStep ps) (b, []) = (b, []) := by
  have key : ∀ (L' : List (ℤ × ℤ)),
      (∀ a ∈ L', b.minesweep_from_cell ps a.1 a.2 = (b, [])) →
      ∀ evs, L'.foldl (chordStep ps) (b, evs) = (b, evs) := by
    intro L'
    induction L' with
    | nil => intro _ evs; rfl
    | cons a t ih =>
      intro hL' evs
      rw [List.foldl_cons]
      have hstep : chordStep ps (b, evs) a = (b, evs) := by
        unfold chordStep
        rw [hL' a (List.mem_cons_self a t)]
        simp
      rw [hstep]
      exact ih (fun a' ha' => hL' a' (List.mem_cons_of_mem _ ha')) evs
  exact key L hL []

/-- C7: the chording branch of on_mouse_press triggers reveals on the cell's
neighbours exactly when the cell is valid, already revealed, its stored value
is a number 1..8, and the flagged-neighbour count equals that value. On an
unrevealed or invalid cell, on any flag-count mismatch, on a mine cell (its
sentinel 9 can never equal the at-most-8 flag count), and on a revealed
0-cell (whose neighbours are all already revealed after its flood fill), the
operation leaves the board unchanged and emits no events. -/
theorem chord_exactness (b : Checkerboard) (ps : List ℕ) (r c : ℤ)
    (hne : b.grid.mfEmpty = false)
    (hzrev : b.grid.grid r c = 0 →
      ∀ a ∈ b.grid.get_adjacents r c, a ∈ b.revealed) :
    (b.chord ps r c ≠ (b, []) →
      (b.grid.valid_index r c ∧ (r, c) ∈ b.revealed ∧
       1 ≤ b.grid.grid r c ∧ b.grid.grid r c ≤ 8 ∧
       (b.grid.get_adjacents r c).countP (fun a => decide (a ∈ b.flags)) =
         b.grid.grid r c)) ∧
    ((b.grid.valid_index r c ∧ (r, c) ∈ b.revealed ∧
      (b.grid.get_adjacents r c).countP (fun a => decide (a ∈ b.flags)) =
        b.grid.grid r c) →
      b.chord ps r c =
        (b.grid.get_adjacents r c).foldl (chordStep ps) (b, [])) := by
  have hcle : (b.grid.get_adjacents r c).countP (fun a => decide (a ∈ b.flags)) ≤ 8 := by
    refine le_trans (List.countP_le_length _) ?_
    unfold Minefield.get_adjacents
    exact le_trans (List.length_filter_le _ _) (by simp)
  constructor
  · intro hne0
    by_cases hvr : b.grid.valid_index r c ∧ (r, c) ∈ b.revealed
    · by_cases hcnt : (b.grid.get_adjacents r c).countP
          (fun a => decide (a ∈ b.flags)) = b.grid.grid r c
      · refine ⟨hvr.1, hvr.2, ?_, by omega, hcnt⟩
        by_cases hz : b.grid.grid r c = 0
        · exfalso
          apply hne0
          unfold Checkerboard.chord
          rw [if_pos hvr, if_pos hcnt]
          refine chordFold_noop b ps _ (fun a ha => ?_)
          rw [msfc_else b ps a.1 a.2 (Or.inr (Or.inr (hzrev hz a ha))),
            genIfEmpty_of_false b ps hne]
        · omega
      · exfalso
        apply hne0
        unfold Checkerboard.chord
        rw [if_pos hvr, if_neg hcnt]
    · exfalso
      apply hne0
      unfold Checkerboard.chord
      rw [if_neg hvr]
  · rintro ⟨hv, hr, hcnt⟩
    unfold Checkerboard.chord
    rw [if_pos ⟨hv, hr⟩, if_pos hcnt]

def wBoard7 : Checkerboard := ⟨3, 3, 1, wM3, {(1, 1)}, {(2, 2)}⟩

theorem chord_exactness_witness :
    (wBoard7.grid.mfEmpty = false ∧
      (wBoard7.grid.grid 1 1 = 0 →
        ∀ a ∈ wBoard7.grid.get_adjacents 1 1, a ∈ wBoard7.revealed)) ∧
    ((wBoard7.chord [] 1 1 ≠ (wBoard7, []) →
      (wBoard7.grid.valid_index 1 1 ∧ ((1 : ℤ), (1 : ℤ)) ∈ wBoard7.revealed ∧
       1 ≤ wBoard7.grid.grid 1 1 ∧ wBoard7.grid.grid 1 1 ≤ 8 ∧
       (wBoard7.grid.get_adjacents 1 1).countP (fun a => decide (a ∈ wBoard7.flags)) =
         wBoard7.grid.grid 1 1)) ∧
     ((wBoard7.grid.valid_index 1 1 ∧ ((1 : ℤ), (1 : ℤ)) ∈ wBoard7.revealed ∧
       (wBoard7.grid.get_adjacents 1 1).countP (fun a => decide (a ∈ wBoard7.flags)) =
         wBoard7.grid.grid 1 1) →
      wBoard7.chord [] 1 1 =
        (wBoard7.grid.get_adjacents 1 1).foldl (chordStep []) (wBoard7, []))) :=
  ⟨⟨rfl, by decide⟩, chord_exactness wBoard7 [] 1 1 rfl (by decide)⟩

end MS
